import Mathlib

/-
  Verification of the forest-fire simulation core (Drossel-Schwabl cellular
  automaton with suppression and inhomogeneous/spatial variants).

  The Python source mutates numpy grids in place; here a grid is embedded as a
  total function from integer coordinates to cell states, and every mutation
  becomes an explicit functional update.  Calls to the random number generator
  are embedded as explicit streams of rational numbers (one entry per draw, in
  the order the source consumes them); `random.sample` is embedded as an oracle
  function together with the contract it guarantees (distinct elements of the
  population, exactly the requested count).  The iterative flood fills are
  embedded with an explicit fuel argument; the fuel supplied by the entry
  points is proved sufficient for every in-bounds start.
-/

/-! ## Shared lattice infrastructure -/

/-- A lattice coordinate `(x, y)` (row, column), as used by the numpy grids. -/
abbrev Pos : Type := ℤ × ℤ

/-- A grid is embedded as a total function from coordinates to cell states.
The sources only ever read and write in-bounds coordinates. -/
abbrev Grid : Type := Pos → ℕ

/-- Bounds check `0 <= x < L and 0 <= y < L` from the sources. -/
def inB (L : ℤ) (q : Pos) : Prop :=
  0 ≤ q.1 ∧ q.1 < L ∧ 0 ≤ q.2 ∧ q.2 < L

instance (L : ℤ) (q : Pos) : Decidable (inB L q) := by
  unfold inB; infer_instance

/-- The finite set of in-bounds coordinates of an `L` by `L` grid. -/
def cellsFinset (L : ℤ) : Finset Pos := Finset.Icc (0, 0) (L - 1, L - 1)

/-- All in-bounds coordinates in row-major order, the enumeration order of
`np.argwhere` and `np.flatnonzero`. -/
def scanPairs (L : ℤ) : List Pos :=
  (List.range L.toNat).flatMap
    (fun i : ℕ => (List.range L.toNat).map (fun j : ℕ => ((i : ℤ), (j : ℤ))))

/-- 4-neighbor (von Neumann) offsets, in the order the sources list them. -/
def neighbors4 : List Pos := [(0, 1), (0, -1), (1, 0), (-1, 0)]

/-- 8-neighbor (Moore) offsets, in the order the sources list them. -/
def neighbors8 : List Pos :=
  [(0, 1), (0, -1), (1, 0), (-1, 0), (1, 1), (1, -1), (-1, 1), (-1, -1)]

/-- Offset list selection: `connectivity == 8` gives the Moore neighborhood,
anything else the default von Neumann neighborhood. -/
def nbrsOf (connectivity : ℕ) : List Pos :=
  if connectivity = 8 then neighbors8 else neighbors4

/-- Reachability through cells satisfying `ok`, stepping by offsets in `nb`:
`Reach ok nb a b` holds when `b` can be reached from `a` through a chain of
`ok` cells.  The connected component of `a` is `{p | Reach ok nb a p}`. -/
inductive Reach (ok : Pos → Prop) (nb : List Pos) : Pos → Pos → Prop
  | refl (a : Pos) : ok a → Reach ok nb a a
  | tail {a b : Pos} (d : Pos) : Reach ok nb a b → d ∈ nb → ok (b + d) →
      Reach ok nb a (b + d)

/-- In-bounds tree cell (state `1`), the cells a foundation burn spreads over. -/
def okTree (g : Grid) (L : ℤ) (q : Pos) : Prop := inB L q ∧ g q = 1

/-- Number of in-bounds cells of `g` holding state `v`. -/
def stateCount (g : Grid) (L : ℤ) (v : ℕ) : ℕ :=
  ((cellsFinset L).filter (fun p => g p = v)).card

/-- Fuel sufficient for any flood fill over an `L` by `L` grid with offset
list `nb`: every cell is popped at most once as a live cell and pushed at most
`nb.length` times. -/
def gridFuel (L : ℤ) (nb : List Pos) : ℕ :=
  (nb.length + 1) * (L.toNat * L.toNat) + 1

/-- Contract of `random.sample(population, k)`: a list of `k` distinct
elements of the population (uniformity of the choice is not modelled; the
theorems hold for every choice satisfying this contract). -/
def SampleOK (sample : Finset Pos → ℕ → List Pos) : Prop :=
  ∀ (s : Finset Pos) (n : ℕ), n ≤ s.card →
    (sample s n).Nodup ∧ (sample s n).length = n ∧ ∀ q ∈ sample s n, q ∈ s

/-- An injective encoding of an integer as a natural number. -/
def intKey (z : ℤ) : ℕ := 2 * z.natAbs + if z < 0 then 1 else 0

/-- An injective encoding of a coordinate as a natural number, used to give
witnesses a concrete, computable ordering of a finite set of coordinates. -/
def posKey (p : Pos) : ℕ := Nat.pair (intKey p.1) (intKey p.2)

/-- Total order on coordinates by their encoding. -/
def keyLE (a b : Pos) : Prop := posKey a ≤ posKey b

instance : DecidableRel keyLE := fun a b => Nat.decLe _ _

instance : IsTrans Pos keyLE := ⟨fun _ _ _ => Nat.le_trans⟩

instance : IsTotal Pos keyLE := ⟨fun a b => Nat.le_total _ _⟩

instance : IsAntisymm Pos keyLE where
  antisymm a b h1 h2 := by
    have h : posKey a = posKey b := Nat.le_antisymm h1 h2
    unfold posKey at h
    obtain ⟨hfst, hsnd⟩ := Nat.pair_eq_pair.mp h
    have key : ∀ x y : ℤ, intKey x = intKey y → x = y := by
      intro x y hxy
      unfold intKey at hxy
      by_cases hx : x < 0 <;> by_cases hy : y < 0 <;>
        simp only [hx, hy, if_true, if_false] at hxy <;> omega
    exact Prod.ext (key _ _ hfst) (key _ _ hsnd)

/-- A sorted list of the elements of a multiset of coordinates, via insertion
sort by `keyLE` (structural recursion, so concrete witnesses evaluate inside
the kernel). -/
def msortKey (s : Multiset Pos) : List Pos :=
  Quot.liftOn s (fun l => List.insertionSort keyLE l) fun l1 l2 h =>
    List.eq_of_perm_of_sorted
      ((List.perm_insertionSort keyLE l1).trans
        (h.trans (List.perm_insertionSort keyLE l2).symm))
      (List.sorted_insertionSort keyLE l1) (List.sorted_insertionSort keyLE l2)

/-- A concrete sampling function satisfying `SampleOK`: the first `n` elements
of the population in the `keyLE` order.  Used to instantiate witnesses. -/
def sortedSample (s : Finset Pos) (n : ℕ) : List Pos :=
  (msortKey s.val).take n

/-! ## src/drosselschwab.py -/

namespace DS

/-- The neighbors eligible for pushing from `c`: in-bounds cells holding a
tree, read from the grid after the current cell was set to the fire state
(from `src/drosselschwab.py`, lines 51-57). -/
def burnPush (L : ℤ) (nb : List Pos) (g : Grid) (c : Pos) : List Pos :=
  (nb.map (fun d => c + d)).filter (fun q => decide (inB L q) && decide (g q = 1))

/-- The flood-fill stack loop of `burn_step` (`src/drosselschwab.py`, lines
41-57), with the hard-coded fire state `2` generalized to `bv` so that the
identical loop of `src/rq1.py` (which empties cells to `0` directly) is the
instance `bv = 0`.  State: grid, stack (head = top, matching Python
`append`/`pop` at the end of the list), burned count, and the `burnt_trees`
set.  The fuel argument only bounds the iteration count; the callers supply a
provably sufficient amount. -/
def burnLoop (L : ℤ) (nb : List Pos) (bv : ℕ) :
    ℕ → Grid → List Pos → ℕ → Finset Pos → Grid × ℕ × Finset Pos
  | 0, g, _, acc, bt => (g, acc, bt)
  | _ + 1, g, [], acc, bt => (g, acc, bt)
  | fuel + 1, g, c :: rest, acc, bt =>
    if g c ≠ 1 then burnLoop L nb bv fuel g rest acc bt
    else
      let g' := Function.update g c bv
      let pushed := burnPush L nb g' c
      burnLoop L nb bv fuel g' (pushed.reverse ++ rest) (acc + 1)
        (bt ∪ pushed.toFinset)

/-- `burn_step(grid, x, y, L, connectivity, suppress, advanced_state)` from
`src/drosselschwab.py`: burn the connected tree cluster containing `(x, y)`
(cells set to fire state `2`), then replant `min(burned_size, suppress)` of
the burnt coordinates (state `3` if `advanced_state` else `1`), returning the
updated grid and `burned_size - num_replace`.  The `rnd.sample` call is the
`sample` oracle. -/
def burn_step (g : Grid) (x y : ℤ) (L : ℤ) (connectivity : ℕ) (suppress : ℕ)
    (advanced_state : Bool) (sample : Finset Pos → ℕ → List Pos) :
    Grid × ℕ :=
  if g (x, y) ≠ 1 then (g, 0)
  else
    let nb := nbrsOf connectivity
    let r := burnLoop L nb 2 (gridFuel L nb) g [(x, y)] 0 {(x, y)}
    let num_replace := min r.2.1 suppress
    let trees_to_replace := sample r.2.2 num_replace
    let replant_state := if advanced_state then 3 else 1
    (trees_to_replace.foldl (fun h c => Function.update h c replant_state) r.1,
      r.2.1 - num_replace)

/-- Phase 0 of `step`: clear previous fires (`2 → 0`) and suppressed (`3 → 1`). -/
def clearGrid (g : Grid) : Grid :=
  fun q => if g q = 2 then 0 else if g q = 3 then 1 else g q

/-- Phase 1 of `step`: every empty cell receives one growth roll (in row-major
order, matching the vectorized `grid[empty_mask] = growth_roll < p`) and
becomes a tree exactly when its roll is below `p`. -/
def growthPhase (g : Grid) (L : ℤ) (p : ℚ) (growthRolls : List ℚ) : Grid :=
  let empties := (scanPairs L).filter (fun q => decide (g q = 0))
  (empties.zip growthRolls).foldl
    (fun h cr => Function.update h cr.1 (if cr.2 < p then 1 else 0)) g

/-- `step(grid, fire_sizes, L, p, f, suppress, advanced_state)` from
`src/drosselschwab.py`: clear transient states, growth phase, lightning phase
(one roll per tree cell in row-major order), then burn each struck cell that
is still a tree, appending each returned fire size.  Randomness is passed as
explicit streams; returns the updated grid and fire-size list. -/
def step (g : Grid) (fire_sizes : List ℕ) (L : ℤ) (p f : ℚ) (suppress : ℕ)
    (advanced_state : Bool) (growthRolls lightRolls : List ℚ)
    (sample : Finset Pos → ℕ → List Pos) : Grid × List ℕ :=
  let g0 := clearGrid g
  let g1 := growthPhase g0 L p growthRolls
  let trees := (scanPairs L).filter (fun q => decide (g1 q = 1))
  let strikes := ((trees.zip lightRolls).filter
    (fun cr => decide (cr.2 < f))).map Prod.fst
  strikes.foldl
    (fun st pos =>
      if st.1 pos = 1 then
        let r := burn_step st.1 pos.1 pos.2 L 4 suppress advanced_state sample
        (r.1, st.2 ++ [r.2])
      else st)
    (g1, fire_sizes)

end DS

/-! ## src/rq1.py -/

namespace RQ1

/-- The flood-fill stack loop of `burn_step` from `src/rq1.py`, lines 35-51:
identical to the loop in `src/drosselschwab.py` except that burnt cells are
emptied to `0` directly and no `burnt_trees` set is kept. -/
def burnLoopR (L : ℤ) (nb : List Pos) :
    ℕ → Grid → List Pos → ℕ → Grid × ℕ
  | 0, g, _, acc => (g, acc)
  | _ + 1, g, [], acc => (g, acc)
  | fuel + 1, g, c :: rest, acc =>
    if g c ≠ 1 then burnLoopR L nb fuel g rest acc
    else
      let g' := Function.update g c 0
      let pushed := DS.burnPush L nb g' c
      burnLoopR L nb fuel g' (pushed.reverse ++ rest) (acc + 1)

/-- `burn_step(grid, x, y, L, connectivity)` from `src/rq1.py`: burn the
connected tree cluster containing `(x, y)` to empty, returning the updated
grid and the cluster size (`0` if the start is not a tree). -/
def burn_step (g : Grid) (x y : ℤ) (L : ℤ) (connectivity : ℕ) : Grid × ℕ :=
  if g (x, y) ≠ 1 then (g, 0)
  else
    let nb := nbrsOf connectivity
    burnLoopR L nb (gridFuel L nb) g [(x, y)] 0

end RQ1

/-! ## src/rq3.py -/

namespace RQ3

/-- Cell states of the inhomogeneous model (`src/rq3.py`, lines 3-5). -/
def EMPTY : ℕ := 0

/-- Pine: always flammable. -/
def PINE : ℕ := 1

/-- Oak: catches fire from a neighbor only with probability `p_burn_oak`. -/
def OAK : ℕ := 2

/-- Result of an inhomogeneous burn: final grid, burned count, unconsumed
remainder of the oak-roll stream, and the log of coordinates for which a
`p_burn_oak` roll was consumed, in consumption order (instrumentation that
records exactly where the source calls `np.random.rand()`). -/
structure BurnResult where
  grid : Grid
  size : ℕ
  stream : List ℚ
  oakLog : List Pos

/-- The neighbor inspection loop of `burn_step_inhomogeneous`
(`src/rq3.py`, lines 32-47): walk the offsets in order; skip out-of-bounds
and empty neighbors; a pine neighbor always burns; an oak neighbor consumes
one roll from the stream (logged) and burns exactly when the roll is below
`p_burn_oak`.  Returns the cells to push (in offset order), the remaining
stream, and the extended log. -/
def inspectLoop (L : ℤ) (p_burn_oak : ℚ) (g : Grid) (c : Pos) :
    List Pos → List ℚ → List Pos → List Pos × List ℚ × List Pos
  | [], stream, log => ([], stream, log)
  | d :: ds, stream, log =>
    let q := c + d
    if inB L q then
      let v := g q
      if v = EMPTY then inspectLoop L p_burn_oak g c ds stream log
      else if v = PINE then
        let r := inspectLoop L p_burn_oak g c ds stream log
        (q :: r.1, r.2)
      else if v = OAK then
        let roll := stream.headD 0
        let r := inspectLoop L p_burn_oak g c ds stream.tail (log ++ [q])
        if roll < p_burn_oak then (q :: r.1, r.2) else r
      else inspectLoop L p_burn_oak g c ds stream log
    else inspectLoop L p_burn_oak g c ds stream log

/-- The stack loop of `burn_step_inhomogeneous` (`src/rq3.py`, lines 22-49):
pop a cell; if it is already empty skip it; otherwise empty it, count it, and
push the neighbors selected by `inspectLoop`.  There is no visited set: a
cell may sit on the stack several times, and an unburnt oak may be inspected
(and rolled for) once per burning neighbor. -/
def burnLoopI (L : ℤ) (p_burn_oak : ℚ) (nb : List Pos) :
    ℕ → Grid → List Pos → ℕ → List ℚ → List Pos → BurnResult
  | 0, g, _, acc, stream, log => ⟨g, acc, stream, log⟩
  | _ + 1, g, [], acc, stream, log => ⟨g, acc, stream, log⟩
  | fuel + 1, g, c :: rest, acc, stream, log =>
    if g c = EMPTY then burnLoopI L p_burn_oak nb fuel g rest acc stream log
    else
      let g' := Function.update g c EMPTY
      let r := inspectLoop L p_burn_oak g' c nb stream log
      burnLoopI L p_burn_oak nb fuel g' (r.1.reverse ++ rest) (acc + 1)
        r.2.1 r.2.2

/-- `burn_step_inhomogeneous(grid, x, y, L, p_burn_oak, connectivity)` from
`src/rq3.py`: returns `0` immediately when the start cell is empty, otherwise
burns from `(x, y)` (pine spreads unconditionally, oak by roll). -/
def burn_step_inhomogeneous (g : Grid) (x y : ℤ) (L : ℤ) (p_burn_oak : ℚ)
    (connectivity : ℕ) (stream : List ℚ) : BurnResult :=
  if g (x, y) = EMPTY then ⟨g, 0, stream, []⟩
  else
    let nb := nbrsOf connectivity
    burnLoopI L p_burn_oak nb (gridFuel L nb) g [(x, y)] 0 stream []

/-- `step_inhomogeneous(grid, fire_sizes, L, p, f, oak_ratio, p_burn_oak)`
from `src/rq3.py`, lines 52-83, including the source nesting: the whole
growth-lightning-burn body is guarded by `if num_empty > 0`, so a grid with
no empty cell is returned unchanged with no random draw consumed.  Growth:
one roll per empty cell (row-major); each growing cell draws a type roll and
becomes oak when it is below `oak_ratio`, else pine.  Lightning: one roll per
tree cell of the post-growth grid (row-major); each struck cell still
non-empty is burned, its size appended.  Returns (grid, fire sizes, remaining
oak-roll stream). -/
def step_inhomogeneous (g : Grid) (fire_sizes : List ℕ) (L : ℤ) (p f : ℚ)
    (oak_ratio p_burn_oak : ℚ) (growthRolls typeRolls lightRolls : List ℚ)
    (oakStream : List ℚ) : Grid × List ℕ × List ℚ :=
  let empties := (scanPairs L).filter (fun q => decide (g q = EMPTY))
  if 0 < empties.length then
    let newTrees := ((empties.zip growthRolls).filter
      (fun cr => decide (cr.2 < p))).map Prod.fst
    let g1 := (newTrees.zip typeRolls).foldl
      (fun h ct => Function.update h ct.1 (if ct.2 < oak_ratio then OAK else PINE)) g
    let trees := (scanPairs L).filter (fun q => decide (EMPTY < g1 q))
    let strikes := ((trees.zip lightRolls).filter
      (fun cr => decide (cr.2 < f))).map Prod.fst
    strikes.foldl
      (fun st pos =>
        if st.1 pos ≠ EMPTY then
          let r := burn_step_inhomogeneous st.1 pos.1 pos.2 L p_burn_oak 4 st.2.2
          (r.grid, st.2.1 ++ [r.size], r.stream)
        else st)
      (g1, fire_sizes, oakStream)
  else (g, fire_sizes, oakStream)

end RQ3

/-! ## Cluster-size scan (simulations/drosselschwab.py and src/rq3.py)

The two `_compute_cluster_sizes` functions are textually identical except for
the cell test: the foundation variant counts cells equal to `1`, the
inhomogeneous variant counts cells greater than `0`.  The common loop is
embedded once, parameterized by the cell test `live`. -/

/-- Number of in-bounds cells passing the `live` test (the
`np.count_nonzero` guards of the two cluster-size functions). -/
def liveCount (live : ℕ → Bool) (g : Grid) (L : ℤ) : ℕ :=
  ((cellsFinset L).filter (fun p => live (g p) = true)).card

/-- The neighbor loop of the cluster flood fill: walk the offsets in order;
each in-bounds, unvisited, live neighbor is marked visited and collected for
pushing.  Returns the cells to push (in offset order) and the updated
visited map. -/
def clusterNbrs (L : ℤ) (live : ℕ → Bool) (g : Grid) (c : Pos) :
    List Pos → (Pos → Bool) → List Pos × (Pos → Bool)
  | [], visited => ([], visited)
  | d :: ds, visited =>
    let q := c + d
    if inB L q ∧ visited q = false ∧ live (g q) = true then
      let r := clusterNbrs L live g c ds (Function.update visited q true)
      (q :: r.1, r.2)
    else clusterNbrs L live g c ds visited

/-- The inner stack loop of `_compute_cluster_sizes`: pop a cell, count it,
mark and push its eligible neighbors.  The visited discipline (mark at push
time) means no cell enters the stack twice. -/
def clusterFlood (L : ℤ) (nb : List Pos) (live : ℕ → Bool) (g : Grid) :
    ℕ → List Pos → (Pos → Bool) → ℕ → (Pos → Bool) × ℕ
  | 0, _, visited, size => (visited, size)
  | _ + 1, [], visited, size => (visited, size)
  | fuel + 1, c :: rest, visited, size =>
    let r := clusterNbrs L live g c nb visited
    clusterFlood L nb live g fuel (r.1.reverse ++ rest) r.2 (size + 1)

/-- The outer row-major scan of `_compute_cluster_sizes`: every live,
unvisited cell starts a new flood fill whose size is appended to the cluster
list. -/
def clusterScan (L : ℤ) (nb : List Pos) (live : ℕ → Bool) (g : Grid) :
    List Pos → (Pos → Bool) → List ℕ → (Pos → Bool) × List ℕ
  | [], visited, clusters => (visited, clusters)
  | c :: cs, visited, clusters =>
    if live (g c) = true ∧ visited c = false then
      let r := clusterFlood L nb live g (gridFuel L nb) [c]
        (Function.update visited c true) 0
      clusterScan L nb live g cs r.1 (clusters ++ [r.2])
    else clusterScan L nb live g cs visited clusters

namespace SIM

/-- `_compute_cluster_sizes(grid, connectivity)` from
`simulations/drosselschwab.py`: sizes of the connected clusters of cells
holding exactly `1`, in row-major discovery order; the input grid is only
read (the scan mutates a separate `visited` array). -/
def compute_cluster_sizes (g : Grid) (L : ℤ) (connectivity : ℕ) : List ℕ :=
  if liveCount (fun v => v == 1) g L = 0 then []
  else (clusterScan L (nbrsOf connectivity) (fun v => v == 1) g
    (scanPairs L) (fun _ => false) []).2

/-- One run of the loop body of `simulate_drosselschwab_steps`: tick once per
listed step index, collecting the yielded `(grid, fire_sizes, i + 1)`
triples.  In the pure embedding the yielded snapshot is by construction a
value the later ticks cannot alter (`np.copy(grid), list(fire_sizes)` in the
source). -/
def runSteps (L : ℤ) (p f : ℚ) (suppress : ℕ) (advanced_state : Bool)
    (growth light : ℕ → List ℚ) (sample : Finset Pos → ℕ → List Pos) :
    List ℕ → Grid → List ℕ → List (Grid × List ℕ × ℕ)
  | [], _, _ => []
  | i :: is, g, fs =>
    let r := DS.step g fs L p f suppress advanced_state (growth i) (light i) sample
    (r.1, r.2, i + 1) ::
      runSteps L p f suppress advanced_state growth light sample is r.1 r.2

/-- `simulate_drosselschwab_steps(...)` from `simulations/drosselschwab.py`:
if an initial state `(initial_grid, initial_fire_sizes, start_step)` is
given, copy it and tick the step indices `start_step, ..., steps - 1`;
otherwise start from the all-empty grid and the empty fire-size list and tick
`0, ..., steps - 1`.  Randomness for tick `i` is the streams `growth i` and
`light i`.  The function performs no validation of `L`, `p`, `f`, `steps` or
`suppress`. -/
def simulate_drosselschwab_steps (L : ℤ) (p f : ℚ) (steps : ℕ)
    (suppress : ℕ) (advanced_state : Bool)
    (init : Option (Grid × List ℕ × ℕ)) (growth light : ℕ → List ℚ)
    (sample : Finset Pos → ℕ → List Pos) : List (Grid × List ℕ × ℕ) :=
  match init with
  | some gfs =>
    runSteps L p f suppress advanced_state growth light sample
      (List.range' gfs.2.2 (steps - gfs.2.2)) gfs.1 gfs.2.1
  | none =>
    runSteps L p f suppress advanced_state growth light sample
      (List.range' 0 steps) (fun _ => 0) []

end SIM

namespace RQ3

/-- `_compute_cluster_sizes(grid, connectivity)` from `src/rq3.py` (also
`simulations/inhomogeneous.py`): identical to the foundation scan except that
every cell greater than `0` (pine or oak) counts as a tree. -/
def compute_cluster_sizes (g : Grid) (L : ℤ) (connectivity : ℕ) : List ℕ :=
  if liveCount (fun v => 0 < v) g L = 0 then []
  else (clusterScan L (nbrsOf connectivity) (fun v => 0 < v) g
    (scanPairs L) (fun _ => false) []).2

end RQ3

/-! ## Concrete grids used by witnesses and counterexamples -/

/-- A 1 by 1 grid holding a single tree. -/
def g1x1 : Grid := fun q => if q = (0, 0) then 1 else 0

/-- A 2 by 2 grid: three pines and one oak at `(1, 1)`. -/
def gOak : Grid := fun q =>
  if q = (0, 0) then 1 else if q = (0, 1) then 1 else if q = (1, 0) then 1
  else if q = (1, 1) then 2 else 0

/-- A 1 by 1 grid fully covered by a pine (no empty cell). -/
def gPine : Grid := fun q => if q = (0, 0) then 1 else 0

/-- A 5 by 5 grid with two disjoint tree clusters of sizes 3 and 7. -/
def gClusters : Grid := fun q =>
  if q = (0, 0) ∨ q = (0, 1) ∨ q = (1, 0) then 1
  else if q = (3, 0) ∨ q = (3, 1) ∨ q = (3, 2) ∨ q = (3, 3) ∨ q = (3, 4)
      ∨ q = (4, 0) ∨ q = (4, 4) then 1
  else 0

/-- A 5 by 5 grid with a plus-shaped 5-cell tree cluster centered at `(2, 2)`
and one disconnected tree at `(0, 0)`. -/
def gPlus : Grid := fun q =>
  if q = (2, 2) ∨ q = (1, 2) ∨ q = (3, 2) ∨ q = (2, 1) ∨ q = (2, 3) ∨ q = (0, 0)
  then 1 else 0

/-- A 1 by 1 grid holding a single cell in state 2 (FIRE in the foundation
encoding, OAK in the inhomogeneous encoding). -/
def gState2 : Grid := fun q => if q = (0, 0) then 2 else 0

/-- In-bounds cell passing the `live` test, the cells a cluster scan counts. -/
def okLive (live : ℕ → Bool) (g : Grid) (L : ℤ) (q : Pos) : Prop :=
  inB L q ∧ live (g q) = true

/-- Loop invariant of the foundation flood fill, relating the live state
(grid, stack, burnt set, counter) to the initial grid `g0` and the connected
tree component of `start`. -/
structure BurnInv (g0 : Grid) (L : ℤ) (nb : List Pos) (bv : ℕ) (start : Pos)
    (g : Grid) (stack : List Pos) (bt : Finset Pos) (acc : ℕ) : Prop where
  outside : ∀ p, ¬ Reach (okTree g0 L) nb start p → g p = g0 p
  inside : ∀ p, Reach (okTree g0 L) nb start p → g p = 1 ∨ g p = bv
  stackR : ∀ p ∈ stack, Reach (okTree g0 L) nb start p
  btR : ∀ p ∈ bt, Reach (okTree g0 L) nb start p
  btChar : ∀ p, Reach (okTree g0 L) nb start p →
    (p ∈ bt ↔ (g p = bv ∨ p ∈ stack))
  accEq : acc = (bt.filter (fun p => g p = bv)).card
  closed : ∀ p ∈ bt, g p = bv → ∀ d ∈ nb, okTree g0 L (p + d) → p + d ∈ bt
  startMem : start ∈ bt

/-- Loop invariant of the cluster flood fill: `visited0` is the visited map
before this flood started, `root` the cell that started it. -/
structure FloodInv (live : ℕ → Bool) (g : Grid) (L : ℤ) (nb : List Pos)
    (root : Pos) (visited0 : Pos → Bool)
    (stack : List Pos) (visited : Pos → Bool) (size : ℕ) : Prop where
  mono : ∀ p, visited0 p = true → visited p = true
  newR : ∀ p, visited p = true → visited0 p = false →
    Reach (okLive live g L) nb root p
  stackV : ∀ p ∈ stack, visited p = true ∧ visited0 p = false
  stackND : stack.Nodup
  closed : ∀ p, visited p = true → visited0 p = false → p ∉ stack →
    ∀ d ∈ nb, okLive live g L (p + d) → visited (p + d) = true
  rootV : visited root = true
  sizeEq : size + stack.length =
    ((cellsFinset L).filter
      (fun p => visited p = true ∧ visited0 p = false)).card

/-! ## Theorems -/

-- ===== Burn loop correctness development =====

/-- Every reachable cell satisfies the cell predicate. -/
theorem Reach.ok_of_reach {ok : Pos → Prop} {nb : List Pos} {a b : Pos}
    (h : Reach ok nb a b) : ok b := by
  induction h with
  | refl h => exact h
  | tail d h1 h2 h3 ih => exact h3

theorem mem_cellsFinset {L : ℤ} {p : Pos} : p ∈ cellsFinset L ↔ inB L p := by
  simp only [cellsFinset, inB, Finset.mem_Icc, Prod.le_def]
  omega

theorem cellsFinset_card {L : ℤ} : (cellsFinset L).card = L.toNat * L.toNat := by
  rw [cellsFinset, Finset.card_Icc_prod]
  simp only [Int.card_Icc]
  congr 1 <;> omega

theorem mem_burnPush {L : ℤ} {nb : List Pos} {g : Grid} {c q : Pos} :
    q ∈ DS.burnPush L nb g c ↔ (∃ d ∈ nb, q = c + d) ∧ inB L q ∧ g q = 1 := by
  simp only [DS.burnPush, List.mem_filter, List.mem_map, Bool.and_eq_true,
    decide_eq_true_eq]
  constructor
  · rintro ⟨⟨d, hd, rfl⟩, h1, h2⟩
    exact ⟨⟨d, hd, rfl⟩, h1, h2⟩
  · rintro ⟨⟨d, hd, rfl⟩, h1, h2⟩
    exact ⟨⟨d, hd, rfl⟩, h1, h2⟩

theorem burnPush_length_le {L : ℤ} {nb : List Pos} {g : Grid} {c : Pos} :
    (DS.burnPush L nb g c).length ≤ nb.length := by
  calc (DS.burnPush L nb g c).length ≤ (nb.map (fun d => c + d)).length :=
        List.length_filter_le _ _
    _ = nb.length := List.length_map _ _

theorem stateCount_le {g : Grid} {L : ℤ} {v : ℕ} :
    stateCount g L v ≤ L.toNat * L.toNat := by
  unfold stateCount
  calc ((cellsFinset L).filter (fun p => g p = v)).card ≤ (cellsFinset L).card :=
        Finset.card_filter_le _ _
    _ = L.toNat * L.toNat := cellsFinset_card

theorem stateCount_update {g : Grid} {L : ℤ} {c : Pos} {bv : ℕ}
    (hin : inB L c) (h1 : g c = 1) (hbv : bv ≠ 1) :
    stateCount (Function.update g c bv) L 1 + 1 = stateCount g L 1 := by
  unfold stateCount
  have hmem : c ∈ (cellsFinset L).filter (fun p => g p = 1) :=
    Finset.mem_filter.mpr ⟨mem_cellsFinset.mpr hin, h1⟩
  have hflt : (cellsFinset L).filter (fun p => Function.update g c bv p = 1) =
      ((cellsFinset L).filter (fun p => g p = 1)).erase c := by
    ext p
    simp only [Finset.mem_filter, Finset.mem_erase, Function.update_apply]
    constructor
    · rintro ⟨hp, hv⟩
      by_cases hpc : p = c
      · simp [hpc] at hv; exact absurd hv hbv
      · rw [if_neg hpc] at hv; exact ⟨hpc, hp, hv⟩
    · rintro ⟨hpc, hp, hv⟩
      exact ⟨hp, by rw [if_neg hpc]; exact hv⟩
  have hpos : 0 < ((cellsFinset L).filter (fun p => g p = 1)).card :=
    Finset.card_pos.mpr ⟨c, hmem⟩
  rw [hflt, Finset.card_erase_of_mem hmem]
  omega

theorem burnInv_init (g0 : Grid) (L : ℤ) (nb : List Pos) (bv : ℕ)
    (start : Pos) (hok : okTree g0 L start) (hbv : bv ≠ 1) :
    BurnInv g0 L nb bv start g0 [start] {start} 0 := by
  refine ⟨?_, ?_, ?_, ?_, ?_, ?_, ?_, ?_⟩
  · intro p _; rfl
  · intro p hp; exact Or.inl (Reach.ok_of_reach hp).2
  · intro p hp; rw [List.mem_singleton] at hp; subst hp; exact Reach.refl _ hok
  · intro p hp; rw [Finset.mem_singleton] at hp; subst hp; exact Reach.refl _ hok
  · intro p hp
    simp only [Finset.mem_singleton, List.mem_singleton]
    constructor
    · exact fun h => Or.inr h
    · rintro (h | h)
      · exact absurd (h.symm.trans (Reach.ok_of_reach hp).2) hbv
      · exact h
  · rw [Finset.filter_singleton, if_neg (by rw [hok.2]; exact fun h => hbv h.symm)]
    rfl
  · intro p hp hbvp _ _ _
    rw [Finset.mem_singleton] at hp; subst hp
    rw [hok.2] at hbvp; exact absurd hbvp.symm hbv
  · exact Finset.mem_singleton_self start

theorem burnInv_skip {g0 : Grid} {L : ℤ} {nb : List Pos} {bv : ℕ} {start : Pos}
    {g : Grid} {c : Pos} {rest : List Pos} {bt : Finset Pos} {acc : ℕ}
    (hinv : BurnInv g0 L nb bv start g (c :: rest) bt acc) (hc : g c ≠ 1) :
    BurnInv g0 L nb bv start g rest bt acc := by
  have hcR := hinv.stackR c (List.mem_cons_self c rest)
  have hcbv : g c = bv := (hinv.inside c hcR).resolve_left hc
  refine ⟨hinv.outside, hinv.inside,
    fun p hp => hinv.stackR p (List.mem_cons_of_mem _ hp), hinv.btR, ?_,
    hinv.accEq, hinv.closed, hinv.startMem⟩
  intro p hp
  have hold := hinv.btChar p hp
  constructor
  · intro hmem
    rcases hold.mp hmem with h | h
    · exact Or.inl h
    · rcases List.mem_cons.mp h with h | h
      · left; rw [h]; exact hcbv
      · exact Or.inr h
  · intro h
    exact hold.mpr (h.imp id (List.mem_cons_of_mem _))

theorem burnInv_burn {g0 : Grid} {L : ℤ} {nb : List Pos} {bv : ℕ} {start : Pos}
    {g : Grid} {c : Pos} {rest : List Pos} {bt : Finset Pos} {acc : ℕ}
    (hbv : bv ≠ 1)
    (hinv : BurnInv g0 L nb bv start g (c :: rest) bt acc) (hc : g c = 1) :
    BurnInv g0 L nb bv start (Function.update g c bv)
      ((DS.burnPush L nb (Function.update g c bv) c).reverse ++ rest)
      (bt ∪ (DS.burnPush L nb (Function.update g c bv) c).toFinset) (acc + 1) := by
  set g' := Function.update g c bv with hg'def
  set pushed := DS.burnPush L nb g' c with hpsdef
  have hcR : Reach (okTree g0 L) nb start c :=
    hinv.stackR c (List.mem_cons_self c rest)
  have hg'c : g' c = bv := Function.update_same c bv g
  have hg'o : ∀ p : Pos, p ≠ c → g' p = g p := fun p hp =>
    Function.update_noteq hp bv g
  have hcbt : c ∈ bt := (hinv.btChar c hcR).mpr (Or.inr (List.mem_cons_self c rest))
  have hpushed1 : ∀ q ∈ pushed, g' q = 1 := fun q hq => (mem_burnPush.mp hq).2.2
  have hpushedne : ∀ q ∈ pushed, q ≠ c := by
    intro q hq h
    have h1 := hpushed1 q hq
    rw [h, hg'c] at h1
    exact hbv h1
  have hpushedR : ∀ q ∈ pushed, Reach (okTree g0 L) nb start q := by
    intro q hq
    obtain ⟨⟨d, hd, rfl⟩, hin, hq1⟩ := mem_burnPush.mp hq
    have hgq : g (c + d) = 1 := by
      rw [← hg'o (c + d) (hpushedne _ hq)]; exact hq1
    by_cases hR : Reach (okTree g0 L) nb start (c + d)
    · exact hR
    · have hout := hinv.outside _ hR
      exact Reach.tail d hcR hd ⟨hin, by rw [← hout]; exact hgq⟩
  have hins' : ∀ p, Reach (okTree g0 L) nb start p → g' p = 1 ∨ g' p = bv := by
    intro p hp
    by_cases hpc : p = c
    · right; rw [hpc]; exact hg'c
    · rw [hg'o p hpc]; exact hinv.inside p hp
  have hbtc : ∀ p, Reach (okTree g0 L) nb start p →
      (p ∈ bt ∪ pushed.toFinset ↔ (g' p = bv ∨ p ∈ pushed.reverse ++ rest)) := by
    intro p hp
    have hold := hinv.btChar p hp
    constructor
    · intro hmem
      rcases Finset.mem_union.mp hmem with hpbt | hpp
      · rcases hold.mp hpbt with hbvp | hstk
        · left
          by_cases hpc : p = c
          · rw [hpc]; exact hg'c
          · rw [hg'o p hpc]; exact hbvp
        · rcases List.mem_cons.mp hstk with hpc | hrest
          · left; rw [hpc]; exact hg'c
          · right; exact List.mem_append_right _ hrest
      · right
        exact List.mem_append_left _ (List.mem_reverse.mpr (List.mem_toFinset.mp hpp))
    · intro hmem
      rcases hmem with hbvp | hstk
      · by_cases hpc : p = c
        · subst hpc; exact Finset.mem_union_left _ hcbt
        · have hgp : g p = bv := by rw [← hg'o p hpc]; exact hbvp
          exact Finset.mem_union_left _ (hold.mpr (Or.inl hgp))
      · rcases List.mem_append.mp hstk with hrev | hrest
        · exact Finset.mem_union.mpr
            (Or.inr (List.mem_toFinset.mpr (List.mem_reverse.mp hrev)))
        · exact Finset.mem_union_left _ (hold.mpr (Or.inr (List.mem_cons_of_mem _ hrest)))
  refine ⟨?_, hins', ?_, ?_, hbtc, ?_, ?_, Finset.mem_union_left _ hinv.startMem⟩
  · intro p hp
    have hpc : p ≠ c := fun h => hp (h ▸ hcR)
    rw [hg'o p hpc]
    exact hinv.outside p hp
  · intro p hp
    rcases List.mem_append.mp hp with hrev | hrest
    · exact hpushedR p (List.mem_reverse.mp hrev)
    · exact hinv.stackR p (List.mem_cons_of_mem _ hrest)
  · intro p hp
    rcases Finset.mem_union.mp hp with hpbt | hpp
    · exact hinv.btR p hpbt
    · exact hpushedR p (List.mem_toFinset.mp hpp)
  · have hfilter : (bt ∪ pushed.toFinset).filter (fun p => g' p = bv) =
        insert c (bt.filter (fun p => g p = bv)) := by
      ext p
      simp only [Finset.mem_filter, Finset.mem_union, Finset.mem_insert,
        List.mem_toFinset]
      constructor
      · rintro ⟨hp | hp, hbvp⟩
        · by_cases hpc : p = c
          · exact Or.inl hpc
          · exact Or.inr ⟨hp, (hg'o p hpc).symm.trans hbvp⟩
        · have h1 := hpushed1 p hp
          rw [hbvp] at h1
          exact absurd h1 hbv
      · rintro (rfl | ⟨hp, hbvp⟩)
        · exact ⟨Or.inl hcbt, hg'c⟩
        · have hpc : p ≠ c := by
            intro h; subst h; rw [hc] at hbvp; exact hbv hbvp.symm
          exact ⟨Or.inl hp, (hg'o p hpc).trans hbvp⟩
    rw [hfilter, Finset.card_insert_of_not_mem (by
      simp only [Finset.mem_filter, not_and]
      intro _ h
      rw [hc] at h
      exact hbv h.symm)]
    rw [hinv.accEq]
  · intro p hp hbvp d' hd' hok'
    rcases Finset.mem_union.mp hp with hpbt | hpp
    · by_cases hpc : p = c
      · subst hpc
        by_cases hq1 : g' (p + d') = 1
        · exact Finset.mem_union.mpr (Or.inr (List.mem_toFinset.mpr
            (mem_burnPush.mpr ⟨⟨d', hd', rfl⟩, hok'.1, hq1⟩)))
        · have hqR : Reach (okTree g0 L) nb start (p + d') :=
            Reach.tail d' hcR hd' hok'
          have hqbv : g' (p + d') = bv := (hins' _ hqR).resolve_left hq1
          exact (hbtc _ hqR).mpr (Or.inl hqbv)
      · have hgp : g p = bv := by rw [← hg'o p hpc]; exact hbvp
        exact Finset.mem_union_left _ (hinv.closed p hpbt hgp d' hd' hok')
    · have h1 := hpushed1 p (List.mem_toFinset.mp hpp)
      rw [hbvp] at h1
      exact absurd h1 hbv

theorem burnLoop_run {g0 : Grid} {L : ℤ} {nb : List Pos} {bv : ℕ} {start : Pos}
    (hbv : bv ≠ 1) :
    ∀ (fuel : ℕ) (g : Grid) (stack : List Pos) (bt : Finset Pos) (acc : ℕ),
      BurnInv g0 L nb bv start g stack bt acc →
      (nb.length + 1) * stateCount g L 1 + stack.length ≤ fuel →
      BurnInv g0 L nb bv start (DS.burnLoop L nb bv fuel g stack acc bt).1 []
        (DS.burnLoop L nb bv fuel g stack acc bt).2.2
        (DS.burnLoop L nb bv fuel g stack acc bt).2.1 := by
  intro fuel
  induction fuel with
  | zero =>
    intro g stack bt acc hinv hfuel
    have hs : stack = [] := List.length_eq_zero.mp (by omega)
    subst hs
    simpa only [DS.burnLoop] using hinv
  | succ fuel ih =>
    intro g stack bt acc hinv hfuel
    cases stack with
    | nil => simpa only [DS.burnLoop] using hinv
    | cons c rest =>
      by_cases hc : g c = 1
      · have hred : DS.burnLoop L nb bv (fuel + 1) g (c :: rest) acc bt =
            DS.burnLoop L nb bv fuel (Function.update g c bv)
              ((DS.burnPush L nb (Function.update g c bv) c).reverse ++ rest)
              (acc + 1)
              (bt ∪ (DS.burnPush L nb (Function.update g c bv) c).toFinset) := by
          simp only [DS.burnLoop]
          rw [if_neg (not_not_intro hc)]
        rw [hred]
        have hcR := hinv.stackR c (List.mem_cons_self c rest)
        have hcok := Reach.ok_of_reach hcR
        have hsc := stateCount_update (g := g) hcok.1 hc hbv
        have hpl : (DS.burnPush L nb (Function.update g c bv) c).length ≤
            nb.length := burnPush_length_le
        apply ih _ _ _ _ (burnInv_burn hbv hinv hc)
        have hmul : (nb.length + 1) * stateCount g L 1 =
            (nb.length + 1) * stateCount (Function.update g c bv) L 1 +
              (nb.length + 1) := by
          rw [← hsc]; ring
        simp only [List.length_append, List.length_reverse, List.length_cons] at *
        omega
      · have hred : DS.burnLoop L nb bv (fuel + 1) g (c :: rest) acc bt =
            DS.burnLoop L nb bv fuel g rest acc bt := by
          simp only [DS.burnLoop]
          rw [if_pos hc]
        rw [hred]
        apply ih _ _ _ _ (burnInv_skip hinv hc)
        simp only [List.length_cons] at hfuel
        omega

/-- Full characterization of the foundation flood fill started on an in-bounds
tree cell, with enough fuel: the returned burnt set is exactly the connected
tree component of the start, every component cell now holds the burn state,
every other cell is untouched, and the returned count is the component size. -/
theorem burnLoop_spec (g0 : Grid) (L : ℤ) (nb : List Pos) (bv : ℕ)
    (start : Pos) (hbv : bv ≠ 1) (hok : okTree g0 L start) :
    (∀ p, Reach (okTree g0 L) nb start p ↔
      p ∈ (DS.burnLoop L nb bv (gridFuel L nb) g0 [start] 0 {start}).2.2) ∧
    (∀ p, Reach (okTree g0 L) nb start p →
      (DS.burnLoop L nb bv (gridFuel L nb) g0 [start] 0 {start}).1 p = bv) ∧
    (∀ p, ¬ Reach (okTree g0 L) nb start p →
      (DS.burnLoop L nb bv (gridFuel L nb) g0 [start] 0 {start}).1 p = g0 p) ∧
    (DS.burnLoop L nb bv (gridFuel L nb) g0 [start] 0 {start}).2.1 =
      (DS.burnLoop L nb bv (gridFuel L nb) g0 [start] 0 {start}).2.2.card := by
  have hinv0 := burnInv_init g0 L nb bv start hok hbv
  have hle : stateCount g0 L 1 ≤ L.toNat * L.toNat := stateCount_le
  have hmul : (nb.length + 1) * stateCount g0 L 1 ≤
      (nb.length + 1) * (L.toNat * L.toNat) := Nat.mul_le_mul_left _ hle
  have hfin := burnLoop_run hbv (gridFuel L nb) g0 [start] {start} 0 hinv0 (by
    unfold gridFuel
    simp only [List.length_singleton]
    omega)
  have hburn : ∀ p, Reach (okTree g0 L) nb start p →
      (DS.burnLoop L nb bv (gridFuel L nb) g0 [start] 0 {start}).1 p = bv ∧
      p ∈ (DS.burnLoop L nb bv (gridFuel L nb) g0 [start] 0 {start}).2.2 := by
    intro p hp
    induction hp with
    | refl h =>
      have hmem := hfin.startMem
      have hbv2 := (hfin.btChar start (Reach.refl start hok)).mp hmem
      simp only [List.not_mem_nil, or_false] at hbv2
      exact ⟨hbv2, hmem⟩
    | tail d hreach hd hok2 ih =>
      have hqbt := hfin.closed _ ih.2 ih.1 d hd hok2
      have hqR := Reach.tail d hreach hd hok2
      have hqbv := (hfin.btChar _ hqR).mp hqbt
      simp only [List.not_mem_nil, or_false] at hqbv
      exact ⟨hqbv, hqbt⟩
  refine ⟨?_, fun p hp => (hburn p hp).1, hfin.outside, ?_⟩
  · intro p
    exact ⟨fun hp => (hburn p hp).2, fun hp => hfin.btR p hp⟩
  · rw [hfin.accEq]
    congr 1
    exact Finset.filter_true_of_mem (fun p hp => (hburn p (hfin.btR p hp)).1)

theorem foldl_update_apply (l : List Pos) (g : Grid) (v : ℕ) (p : Pos) :
    (l.foldl (fun h c => Function.update h c v) g) p = if p ∈ l then v else g p := by
  induction l generalizing g with
  | nil => simp
  | cons c cs ih =>
    simp only [List.foldl_cons, ih, List.mem_cons, Function.update_apply]
    by_cases h1 : p ∈ cs <;> by_cases h2 : p = c <;> simp [h1, h2]

theorem burnLoopR_eq (L : ℤ) (nb : List Pos) :
    ∀ (fuel : ℕ) (g : Grid) (stack : List Pos) (acc : ℕ) (bt : Finset Pos),
      RQ1.burnLoopR L nb fuel g stack acc =
        ((DS.burnLoop L nb 0 fuel g stack acc bt).1,
          (DS.burnLoop L nb 0 fuel g stack acc bt).2.1) := by
  intro fuel
  induction fuel with
  | zero => intro g stack acc bt; rfl
  | succ fuel ih =>
    intro g stack acc bt
    cases stack with
    | nil => rfl
    | cons c rest =>
      simp only [RQ1.burnLoopR, DS.burnLoop]
      by_cases hc : g c ≠ 1
      · rw [if_pos hc, if_pos hc]
        exact ih g rest acc bt
      · rw [if_neg hc, if_neg hc]
        exact ih _ _ _ _

/-- Characterization of the drosselschwab `burn_step` on an in-bounds tree
start: the burnt set is the connected tree component `B`, the replanted cells
are the sampled list `C` (of size `min |B| suppress`), component cells not
replanted hold fire state `2`, everything else is untouched, and the returned
size is `|B| - min |B| suppress`. -/
theorem burn_step_char (g : Grid) (x y L : ℤ) (connectivity suppress : ℕ)
    (advanced_state : Bool) (sample : Finset Pos → ℕ → List Pos)
    (hs : SampleOK sample) (hin : inB L (x, y)) (hg : g (x, y) = 1) :
    ∃ (B : Finset Pos) (C : List Pos),
      (∀ p, p ∈ B ↔ Reach (okTree g L) (nbrsOf connectivity) (x, y) p) ∧
      C.Nodup ∧ C.length = min B.card suppress ∧ (∀ q ∈ C, q ∈ B) ∧
      (DS.burn_step g x y L connectivity suppress advanced_state sample).2 =
        B.card - min B.card suppress ∧
      (∀ p, (DS.burn_step g x y L connectivity suppress advanced_state sample).1 p =
        if p ∈ C then (if advanced_state then 3 else 1)
        else if p ∈ B then 2 else g p) := by
  obtain ⟨hmem, hburnt, hout, hacc⟩ :=
    burnLoop_spec g L (nbrsOf connectivity) 2 (x, y) (by decide) ⟨hin, hg⟩
  have hsp := hs (DS.burnLoop L (nbrsOf connectivity) 2
      (gridFuel L (nbrsOf connectivity)) g [(x, y)] 0 {(x, y)}).2.2
    (min (DS.burnLoop L (nbrsOf connectivity) 2
      (gridFuel L (nbrsOf connectivity)) g [(x, y)] 0 {(x, y)}).2.1 suppress)
    (by rw [hacc]; exact min_le_left _ _)
  refine ⟨_, _, fun p => (hmem p).symm, hsp.1, by rw [hsp.2.1, hacc], hsp.2.2,
    ?_, ?_⟩
  · simp only [DS.burn_step]
    rw [if_neg (not_not_intro hg)]
    rw [hacc]
  · intro p
    simp only [DS.burn_step]
    rw [if_neg (not_not_intro hg)]
    simp only []
    rw [foldl_update_apply]
    by_cases hpC : p ∈ sample (DS.burnLoop L (nbrsOf connectivity) 2
        (gridFuel L (nbrsOf connectivity)) g [(x, y)] 0 {(x, y)}).2.2
      (min (DS.burnLoop L (nbrsOf connectivity) 2
        (gridFuel L (nbrsOf connectivity)) g [(x, y)] 0 {(x, y)}).2.1 suppress)
    · rw [if_pos hpC, if_pos hpC]
    · rw [if_neg hpC, if_neg hpC]
      by_cases hpB : p ∈ (DS.burnLoop L (nbrsOf connectivity) 2
          (gridFuel L (nbrsOf connectivity)) g [(x, y)] 0 {(x, y)}).2.2
      · rw [if_pos hpB]
        exact hburnt p ((hmem p).mpr hpB)
      · rw [if_neg hpB]
        exact hout p (fun hr => hpB ((hmem p).mp hr))

/-- Characterization of the rq1 `burn_step` on an in-bounds tree start:
component cells are emptied, everything else untouched, and the returned size
is the component cardinality. -/
theorem rq1_burn_step_char {g : Grid} {x y L : ℤ} {connectivity : ℕ}
    (hin : inB L (x, y)) (hg : g (x, y) = 1) :
    (RQ1.burn_step g x y L connectivity).2 =
      Set.ncard {p | Reach (okTree g L) (nbrsOf connectivity) (x, y) p} ∧
    (∀ p, Reach (okTree g L) (nbrsOf connectivity) (x, y) p →
      (RQ1.burn_step g x y L connectivity).1 p = 0) ∧
    (∀ p, ¬ Reach (okTree g L) (nbrsOf connectivity) (x, y) p →
      (RQ1.burn_step g x y L connectivity).1 p = g p) := by
  obtain ⟨hmem, hburnt, hout, hacc⟩ :=
    burnLoop_spec g L (nbrsOf connectivity) 0 (x, y) (by decide) ⟨hin, hg⟩
  have hset : {p | Reach (okTree g L) (nbrsOf connectivity) (x, y) p} =
      ↑(DS.burnLoop L (nbrsOf connectivity) 0 (gridFuel L (nbrsOf connectivity))
        g [(x, y)] 0 {(x, y)}).2.2 := by
    ext p
    simpa using hmem p
  constructor
  · simp only [RQ1.burn_step]
    rw [if_neg (not_not_intro hg)]
    rw [burnLoopR_eq L (nbrsOf connectivity) _ _ _ _ {(x, y)}]
    rw [hset, Set.ncard_coe_Finset]
    exact hacc
  constructor
  · intro p hp
    simp only [RQ1.burn_step]
    rw [if_neg (not_not_intro hg)]
    rw [burnLoopR_eq L (nbrsOf connectivity) _ _ _ _ {(x, y)}]
    exact hburnt p hp
  · intro p hp
    simp only [RQ1.burn_step]
    rw [if_neg (not_not_intro hg)]
    rw [burnLoopR_eq L (nbrsOf connectivity) _ _ _ _ {(x, y)}]
    exact hout p hp

theorem msortKey_coe (s : Multiset Pos) : (msortKey s : Multiset Pos) = s :=
  Quot.inductionOn s fun l => Quot.sound (List.perm_insertionSort keyLE l)

theorem sortedSample_ok : SampleOK sortedSample := by
  intro s n hn
  have hnd : (msortKey s.val).Nodup := by
    rw [← Multiset.coe_nodup, msortKey_coe]
    exact s.nodup
  have hlen : (msortKey s.val).length = s.card := by
    have := congrArg Multiset.card (msortKey_coe s.val)
    simpa using this
  refine ⟨?_, ?_, ?_⟩
  · exact hnd.sublist (List.take_sublist _ _)
  · rw [sortedSample, List.length_take, hlen]
    omega
  · intro q hq
    have hq' := List.mem_of_mem_take hq
    have : q ∈ (msortKey s.val : Multiset Pos) := by
      simpa using hq'
    rw [msortKey_coe] at this
    exact this

/-- C2 (amended): for every grid and in-bounds coordinate, if the start cell
is not a TREE both burn_step variants return 0 and leave the grid unchanged;
if it is a TREE, both variants remove from TREE exactly the connected
component of TREE cells containing the start under the chosen adjacency and
return the component size: the rq1 variant empties the visited cells to
EMPTY as the claim states, while the drosselschwab variant (with
`suppress = 0`, basic mode) sets them to the FIRE state 2 instead of
emptying them; every cell outside the component is unchanged. -/
theorem burn_step_is_component_burn (L : ℤ) (g : Grid) (x y : ℤ)
    (connectivity : ℕ) (sample : Finset Pos → ℕ → List Pos)
    (hs : SampleOK sample) :
    (g (x, y) ≠ 1 →
      DS.burn_step g x y L connectivity 0 false sample = (g, 0) ∧
      RQ1.burn_step g x y L connectivity = (g, 0)) ∧
    (inB L (x, y) → g (x, y) = 1 →
      ((DS.burn_step g x y L connectivity 0 false sample).2 =
          Set.ncard {p | Reach (okTree g L) (nbrsOf connectivity) (x, y) p} ∧
        (∀ p, Reach (okTree g L) (nbrsOf connectivity) (x, y) p →
          (DS.burn_step g x y L connectivity 0 false sample).1 p = 2) ∧
        (∀ p, ¬ Reach (okTree g L) (nbrsOf connectivity) (x, y) p →
          (DS.burn_step g x y L connectivity 0 false sample).1 p = g p)) ∧
      ((RQ1.burn_step g x y L connectivity).2 =
          Set.ncard {p | Reach (okTree g L) (nbrsOf connectivity) (x, y) p} ∧
        (∀ p, Reach (okTree g L) (nbrsOf connectivity) (x, y) p →
          (RQ1.burn_step g x y L connectivity).1 p = 0) ∧
        (∀ p, ¬ Reach (okTree g L) (nbrsOf connectivity) (x, y) p →
          (RQ1.burn_step g x y L connectivity).1 p = g p))) := by
  constructor
  · intro hne
    constructor
    · simp only [DS.burn_step]; rw [if_pos hne]
    · simp only [RQ1.burn_step]; rw [if_pos hne]
  · intro hin hg
    obtain ⟨B, C, hB, hnd, hlen, hsub, hret, hgrid⟩ :=
      burn_step_char g x y L connectivity 0 false sample hs hin hg
    have hCnil : C = [] := List.length_eq_zero.mp (by rw [hlen]; simp)
    have hset : {p | Reach (okTree g L) (nbrsOf connectivity) (x, y) p} = ↑B := by
      ext p; simpa using (hB p).symm
    have hncard : Set.ncard {p | Reach (okTree g L) (nbrsOf connectivity) (x, y) p}
        = B.card := by rw [hset, Set.ncard_coe_Finset]
    refine ⟨⟨?_, ?_, ?_⟩, ?_⟩
    · rw [hret, hncard]; simp
    · intro p hp
      have := hgrid p
      rw [hCnil] at this
      simp only [List.not_mem_nil, if_false] at this
      rw [this, if_pos ((hB p).mpr hp)]
    · intro p hp
      have := hgrid p
      rw [hCnil] at this
      simp only [List.not_mem_nil, if_false] at this
      rw [this, if_neg (fun hpB => hp ((hB p).mp hpB))]
    · exact rq1_burn_step_char hin hg

/-- C3: burning an in-bounds TREE cluster of size `n` with suppression count
`suppress` replants exactly `min n suppress` distinct burnt coordinates
(chosen by the sampling oracle, which models `rnd.sample` drawing without
replacement), resetting them to TREE in basic mode and SUPPRESSED (3) in
advanced mode; the other component cells hold FIRE state 2, cells outside the
component are unchanged, and the returned fire size is `n - min n suppress`,
never negative. -/
theorem burn_step_suppression (L : ℤ) (g : Grid) (x y : ℤ)
    (connectivity suppress : ℕ) (advanced_state : Bool)
    (sample : Finset Pos → ℕ → List Pos) (hs : SampleOK sample)
    (hin : inB L (x, y)) (hg : g (x, y) = 1) :
    ∃ C : Finset Pos,
      (∀ q ∈ C, Reach (okTree g L) (nbrsOf connectivity) (x, y) q) ∧
      C.card = min (Set.ncard {p | Reach (okTree g L) (nbrsOf connectivity) (x, y) p}) suppress ∧
      (∀ p ∈ C, (DS.burn_step g x y L connectivity suppress advanced_state sample).1 p =
        if advanced_state then 3 else 1) ∧
      (∀ p, Reach (okTree g L) (nbrsOf connectivity) (x, y) p → p ∉ C →
        (DS.burn_step g x y L connectivity suppress advanced_state sample).1 p = 2) ∧
      (∀ p, ¬ Reach (okTree g L) (nbrsOf connectivity) (x, y) p →
        (DS.burn_step g x y L connectivity suppress advanced_state sample).1 p = g p) ∧
      (DS.burn_step g x y L connectivity suppress advanced_state sample).2 =
        Set.ncard {p | Reach (okTree g L) (nbrsOf connectivity) (x, y) p} -
          min (Set.ncard {p | Reach (okTree g L) (nbrsOf connectivity) (x, y) p}) suppress := by
  obtain ⟨B, C, hB, hnd, hlen, hsub, hret, hgrid⟩ :=
    burn_step_char g x y L connectivity suppress advanced_state sample hs hin hg
  have hset : {p | Reach (okTree g L) (nbrsOf connectivity) (x, y) p} = ↑B := by
    ext p; simpa using (hB p).symm
  have hncard : Set.ncard {p | Reach (okTree g L) (nbrsOf connectivity) (x, y) p}
      = B.card := by rw [hset, Set.ncard_coe_Finset]
  refine ⟨C.toFinset, ?_, ?_, ?_, ?_, ?_, ?_⟩
  · intro q hq
    exact (hB q).mp (hsub q (List.mem_toFinset.mp hq))
  · rw [List.toFinset_card_of_nodup hnd, hlen, hncard]
  · intro p hp
    rw [hgrid p, if_pos (List.mem_toFinset.mp hp)]
  · intro p hp hpC
    rw [hgrid p, if_neg (fun h => hpC (List.mem_toFinset.mpr h)),
      if_pos ((hB p).mpr hp)]
  · intro p hp
    rw [hgrid p, if_neg ?_, if_neg (fun hpB => hp ((hB p).mp hpB))]
    intro hc
    exact hp ((hB p).mp (hsub p hc))
  · rw [hret, hncard]

/-- C2 counterexample: igniting the single TREE of a 1 by 1 grid with the
drosselschwab `burn_step` (suppress 0, basic mode) leaves the cell in state 2,
not EMPTY, refuting the claim that `burn_step` empties the burnt cells. -/
theorem burn_step_marks_fire_not_empty :
    g1x1 (0, 0) = 1 ∧
    (DS.burn_step g1x1 0 0 1 4 0 false sortedSample).1 (0, 0) = 2 ∧
    (DS.burn_step g1x1 0 0 1 4 0 false sortedSample).1 (0, 0) ≠ 0 ∧
    (DS.burn_step g1x1 0 0 1 4 0 false sortedSample).2 = 1 := by decide

/-- C2 witness: the component-burn theorem applied to the 5-cell plus-shaped
cluster of `gPlus`, together with concrete evaluations: both variants return
fire size 5, the disconnected tree at the origin is untouched, and the rq1
variant empties the ignited center. -/
theorem burn_step_is_component_burn_witness :
    SampleOK sortedSample ∧
    ((gPlus (2, 2) ≠ 1 →
      DS.burn_step gPlus 2 2 5 4 0 false sortedSample = (gPlus, 0) ∧
      RQ1.burn_step gPlus 2 2 5 4 = (gPlus, 0)) ∧
    (inB 5 (2, 2) → gPlus (2, 2) = 1 →
      ((DS.burn_step gPlus 2 2 5 4 0 false sortedSample).2 =
          Set.ncard {p | Reach (okTree gPlus 5) (nbrsOf 4) (2, 2) p} ∧
        (∀ p, Reach (okTree gPlus 5) (nbrsOf 4) (2, 2) p →
          (DS.burn_step gPlus 2 2 5 4 0 false sortedSample).1 p = 2) ∧
        (∀ p, ¬ Reach (okTree gPlus 5) (nbrsOf 4) (2, 2) p →
          (DS.burn_step gPlus 2 2 5 4 0 false sortedSample).1 p = gPlus p)) ∧
      ((RQ1.burn_step gPlus 2 2 5 4).2 =
          Set.ncard {p | Reach (okTree gPlus 5) (nbrsOf 4) (2, 2) p} ∧
        (∀ p, Reach (okTree gPlus 5) (nbrsOf 4) (2, 2) p →
          (RQ1.burn_step gPlus 2 2 5 4).1 p = 0) ∧
        (∀ p, ¬ Reach (okTree gPlus 5) (nbrsOf 4) (2, 2) p →
          (RQ1.burn_step gPlus 2 2 5 4).1 p = gPlus p)))) ∧
    ((RQ1.burn_step gPlus 2 2 5 4).2 = 5 ∧
      (RQ1.burn_step gPlus 2 2 5 4).1 (0, 0) = 1 ∧
      (RQ1.burn_step gPlus 2 2 5 4).1 (2, 2) = 0 ∧
      (DS.burn_step gPlus 2 2 5 4 0 false sortedSample).2 = 5 ∧
      (DS.burn_step gPlus 2 2 5 4 0 false sortedSample).1 (0, 0) = 1) :=
  ⟨sortedSample_ok,
    burn_step_is_component_burn 5 gPlus 2 2 4 sortedSample sortedSample_ok,
    by decide⟩

/-- C3 witness: the suppression theorem applied to the 5-cell plus cluster
with `suppress = 7 >= 5`, plus concrete evaluations: with `suppress = 7` the
returned size is 0 and all 6 trees of the grid are back in TREE state; with
`suppress = 2` the returned size is 3 and exactly 3 cells are in TREE
state. -/
theorem burn_step_suppression_witness :
    SampleOK sortedSample ∧ inB 5 (2, 2) ∧ gPlus (2, 2) = 1 ∧
    (∃ C : Finset Pos,
      (∀ q ∈ C, Reach (okTree gPlus 5) (nbrsOf 4) (2, 2) q) ∧
      C.card = min (Set.ncard {p | Reach (okTree gPlus 5) (nbrsOf 4) (2, 2) p}) 7 ∧
      (∀ p ∈ C, (DS.burn_step gPlus 2 2 5 4 7 false sortedSample).1 p =
        if false then 3 else 1) ∧
      (∀ p, Reach (okTree gPlus 5) (nbrsOf 4) (2, 2) p → p ∉ C →
        (DS.burn_step gPlus 2 2 5 4 7 false sortedSample).1 p = 2) ∧
      (∀ p, ¬ Reach (okTree gPlus 5) (nbrsOf 4) (2, 2) p →
        (DS.burn_step gPlus 2 2 5 4 7 false sortedSample).1 p = gPlus p) ∧
      (DS.burn_step gPlus 2 2 5 4 7 false sortedSample).2 =
        Set.ncard {p | Reach (okTree gPlus 5) (nbrsOf 4) (2, 2) p} -
          min (Set.ncard {p | Reach (okTree gPlus 5) (nbrsOf 4) (2, 2) p}) 7) ∧
    ((DS.burn_step gPlus 2 2 5 4 7 false sortedSample).2 = 0 ∧
      stateCount (DS.burn_step gPlus 2 2 5 4 7 false sortedSample).1 5 1 = 6 ∧
      (DS.burn_step gPlus 2 2 5 4 2 false sortedSample).2 = 3 ∧
      stateCount (DS.burn_step gPlus 2 2 5 4 2 false sortedSample).1 5 1 = 3) :=
  ⟨sortedSample_ok, by decide, by decide,
    burn_step_suppression 5 gPlus 2 2 4 7 false sortedSample sortedSample_ok
      (by decide) (by decide),
    by decide⟩

-- ==== RQ3 lemmas ====

theorem inspectLoop_snd (L : ℤ) (p_burn_oak : ℚ) (g : Grid) (c : Pos) :
    ∀ (ds : List Pos) (stream : List ℚ) (log : List Pos),
      (RQ3.inspectLoop L p_burn_oak g c ds stream log).2 =
        (stream.drop ((ds.map (fun d => c + d)).filter
            (fun q => decide (inB L q) && (g q == RQ3.OAK))).length,
          log ++ (ds.map (fun d => c + d)).filter
            (fun q => decide (inB L q) && (g q == RQ3.OAK))) := by
  intro ds
  induction ds with
  | nil => intro stream log; simp [RQ3.inspectLoop]
  | cons d ds ih =>
    intro stream log
    simp only [RQ3.inspectLoop, List.map_cons, List.filter_cons]
    by_cases hin : inB L (c + d)
    · rw [if_pos hin]
      by_cases h0 : g (c + d) = RQ3.EMPTY
      · have hcond : (decide (inB L (c + d)) && (g (c + d) == RQ3.OAK)) = false := by
          rw [h0]; simp [RQ3.EMPTY, RQ3.OAK]
        rw [if_pos h0]
        simp only [hcond, Bool.false_eq_true, if_false]
        exact ih stream log
      · rw [if_neg h0]
        by_cases h1 : g (c + d) = RQ3.PINE
        · have hcond : (decide (inB L (c + d)) && (g (c + d) == RQ3.OAK)) = false := by
            rw [h1]; simp [RQ3.PINE, RQ3.OAK]
          rw [if_pos h1]
          simp only [hcond, Bool.false_eq_true, if_false]
          show (RQ3.inspectLoop L p_burn_oak g c ds stream log).2 = _
          exact ih stream log
        · rw [if_neg h1]
          by_cases h2 : g (c + d) = RQ3.OAK
          · have hcond : (decide (inB L (c + d)) && (g (c + d) == RQ3.OAK)) = true := by
              rw [h2]; simp [hin]
            rw [if_pos h2]
            simp only [hcond, eq_self_iff_true, if_true]
            have hdrop : List.drop ((List.filter
                  (fun q => decide (inB L q) && (g q == RQ3.OAK))
                  (List.map (fun d => c + d) ds)).length) stream.tail =
                List.drop (((c + d) :: List.filter
                  (fun q => decide (inB L q) && (g q == RQ3.OAK))
                  (List.map (fun d => c + d) ds)).length) stream := by
              rw [← List.drop_one, List.drop_drop, List.length_cons, Nat.add_comm]
            have happ : (log ++ [c + d]) ++ List.filter
                  (fun q => decide (inB L q) && (g q == RQ3.OAK))
                  (List.map (fun d => c + d) ds) =
                log ++ ((c + d) :: List.filter
                  (fun q => decide (inB L q) && (g q == RQ3.OAK))
                  (List.map (fun d => c + d) ds)) := by
              rw [List.append_assoc, List.singleton_append]
            by_cases hroll : stream.headD 0 < p_burn_oak
            · rw [if_pos hroll]
              show (RQ3.inspectLoop L p_burn_oak g c ds stream.tail
                (log ++ [c + d])).2 = _
              rw [ih stream.tail (log ++ [c + d]), hdrop, happ]
            · rw [if_neg hroll]
              rw [ih stream.tail (log ++ [c + d]), hdrop, happ]
          · have hcond : (decide (inB L (c + d)) && (g (c + d) == RQ3.OAK)) = false := by
              simp [h2]
            rw [if_neg h2]
            simp only [hcond, Bool.false_eq_true, if_false]
            exact ih stream log
    · have hcond : (decide (inB L (c + d)) && (g (c + d) == RQ3.OAK)) = false := by
        simp [hin]
      rw [if_neg hin]
      simp only [hcond, Bool.false_eq_true, if_false]
      exact ih stream log

theorem inspectLoop_log (L : ℤ) (p_burn_oak : ℚ) (g : Grid) (c : Pos)
    (ds : List Pos) (stream : List ℚ) (log : List Pos) :
    (RQ3.inspectLoop L p_burn_oak g c ds stream log).2.2 =
      log ++ (ds.map (fun d => c + d)).filter
        (fun q => decide (inB L q) && (g q == RQ3.OAK)) := by
  rw [inspectLoop_snd]

theorem inspectLoop_stream (L : ℤ) (p_burn_oak : ℚ) (g : Grid) (c : Pos)
    (ds : List Pos) (stream : List ℚ) (log : List Pos) :
    (RQ3.inspectLoop L p_burn_oak g c ds stream log).2.1 =
      stream.drop ((ds.map (fun d => c + d)).filter
        (fun q => decide (inB L q) && (g q == RQ3.OAK))).length := by
  rw [inspectLoop_snd]

theorem burnLoopI_grid_empty (L : ℤ) (p_burn_oak : ℚ) (nb : List Pos) :
    ∀ (fuel : ℕ) (g : Grid) (stack : List Pos) (acc : ℕ) (stream : List ℚ)
      (log : List Pos) (q : Pos), g q = RQ3.EMPTY →
      (RQ3.burnLoopI L p_burn_oak nb fuel g stack acc stream log).grid q =
        RQ3.EMPTY := by
  intro fuel
  induction fuel with
  | zero => intro g stack acc stream log q hq; exact hq
  | succ fuel ih =>
    intro g stack acc stream log q hq
    cases stack with
    | nil => exact hq
    | cons c rest =>
      simp only [RQ3.burnLoopI]
      by_cases hc : g c = RQ3.EMPTY
      · rw [if_pos hc]; exact ih g rest acc stream log q hq
      · rw [if_neg hc]
        apply ih
        rw [Function.update_apply]
        by_cases hqc : q = c
        · rw [if_pos hqc]
        · rw [if_neg hqc]; exact hq

theorem burnLoopI_size_le (L : ℤ) (p_burn_oak : ℚ) (nb : List Pos) :
    ∀ (fuel : ℕ) (g : Grid) (stack : List Pos) (acc : ℕ) (stream : List ℚ)
      (log : List Pos),
      acc ≤ (RQ3.burnLoopI L p_burn_oak nb fuel g stack acc stream log).size := by
  intro fuel
  induction fuel with
  | zero => intro g stack acc stream log; exact Nat.le_refl acc
  | succ fuel ih =>
    intro g stack acc stream log
    cases stack with
    | nil => exact Nat.le_refl acc
    | cons c rest =>
      simp only [RQ3.burnLoopI]
      by_cases hc : g c = RQ3.EMPTY
      · rw [if_pos hc]; exact ih g rest acc stream log
      · rw [if_neg hc]
        exact (Nat.le_succ acc).trans (ih _ _ _ _ _)

theorem burnLoopI_log_avoid (L : ℤ) (p_burn_oak : ℚ) (nb : List Pos) :
    ∀ (fuel : ℕ) (g : Grid) (stack : List Pos) (acc : ℕ) (stream : List ℚ)
      (log : List Pos) (q : Pos), g q = RQ3.EMPTY → q ∉ log →
      q ∉ (RQ3.burnLoopI L p_burn_oak nb fuel g stack acc stream log).oakLog := by
  intro fuel
  induction fuel with
  | zero => intro g stack acc stream log q hq hlog; exact hlog
  | succ fuel ih =>
    intro g stack acc stream log q hq hlog
    cases stack with
    | nil => exact hlog
    | cons c rest =>
      simp only [RQ3.burnLoopI]
      by_cases hc : g c = RQ3.EMPTY
      · rw [if_pos hc]; exact ih g rest acc stream log q hq hlog
      · rw [if_neg hc]
        have hq' : Function.update g c RQ3.EMPTY q = RQ3.EMPTY := by
          rw [Function.update_apply]
          by_cases hqc : q = c
          · rw [if_pos hqc]
          · rw [if_neg hqc]; exact hq
        apply ih _ _ _ _ _ _ hq'
        rw [inspectLoop_log L p_burn_oak (Function.update g c RQ3.EMPTY) c nb
          stream log]
        intro hmem
        rcases List.mem_append.mp hmem with h | h
        · exact hlog h
        · have := List.of_mem_filter h
          rw [hq'] at this
          simp [RQ3.EMPTY, RQ3.OAK] at this

/-- C10: for every grid and in-bounds start coordinate holding OAK,
`burn_step_inhomogeneous` burns the struck cell unconditionally: the returned
size is at least 1, the start cell ends EMPTY, and no `p_burn_oak` roll is
ever consumed for the ignition-site cell itself (the resistance roll applies
only to cells discovered as neighbors during the traversal). -/
theorem burn_oak_start_unconditional (g : Grid) (x y L : ℤ) (p_burn_oak : ℚ)
    (connectivity : ℕ) (stream : List ℚ)
    (hin : inB L (x, y)) (hg : g (x, y) = RQ3.OAK) :
    1 ≤ (RQ3.burn_step_inhomogeneous g x y L p_burn_oak connectivity stream).size ∧
    (RQ3.burn_step_inhomogeneous g x y L p_burn_oak connectivity stream).grid (x, y)
      = RQ3.EMPTY ∧
    (x, y) ∉ (RQ3.burn_step_inhomogeneous g x y L p_burn_oak connectivity stream).oakLog := by
  have hne : ¬ g (x, y) = RQ3.EMPTY := by
    rw [hg]; simp [RQ3.OAK, RQ3.EMPTY]
  have hupd : Function.update g (x, y) RQ3.EMPTY (x, y) = RQ3.EMPTY :=
    Function.update_same _ _ _
  simp only [RQ3.burn_step_inhomogeneous, gridFuel]
  rw [if_neg hne]
  simp only [RQ3.burnLoopI]
  rw [if_neg hne]
  refine ⟨?_, ?_, ?_⟩
  · exact Nat.le_trans (Nat.le_refl 1) (burnLoopI_size_le _ _ _ _ _ _ _ _ _)
  · exact burnLoopI_grid_empty _ _ _ _ _ _ _ _ _ _ hupd
  · apply burnLoopI_log_avoid _ _ _ _ _ _ _ _ _ _ hupd
    rw [inspectLoop_log L p_burn_oak (Function.update g (x, y) RQ3.EMPTY)
      (x, y) _ stream []]
    intro hmem
    rcases List.mem_append.mp hmem with h | h
    · simp at h
    · have := List.of_mem_filter h
      rw [hupd] at this
      simp [RQ3.EMPTY, RQ3.OAK] at this

/-- C10 witness: the theorem applied to a 1 by 1 grid holding a single OAK
cell, with the hypotheses discharged by evaluation. -/
theorem burn_oak_start_unconditional_witness :
    inB 1 (0, 0) ∧ gState2 (0, 0) = RQ3.OAK ∧
    (1 ≤ (RQ3.burn_step_inhomogeneous gState2 0 0 1 0 4 []).size ∧
      (RQ3.burn_step_inhomogeneous gState2 0 0 1 0 4 []).grid (0, 0) = RQ3.EMPTY ∧
      (0, 0) ∉ (RQ3.burn_step_inhomogeneous gState2 0 0 1 0 4 []).oakLog) :=
  ⟨by decide, by decide,
    burn_oak_start_unconditional gState2 0 0 1 0 4 [] (by decide) (by decide)⟩

/-- C4 (amended): in the inhomogeneous burn, the `p_burn_oak` roll is
evaluated once per discovery event, not once per cell: when a burning cell
inspects its neighbor offsets, exactly one roll is consumed and logged for
each in-bounds neighbor that is currently OAK, in offset order, regardless of
whether the same cell was already rolled for earlier in the fire event.  A
failed roll therefore does not fix the fate of the oak cell. -/
theorem oak_roll_once_per_discovery (L : ℤ) (p_burn_oak : ℚ) (g : Grid)
    (c : Pos) (ds : List Pos) (stream : List ℚ) (log : List Pos) :
    (RQ3.inspectLoop L p_burn_oak g c ds stream log).2.2 =
      log ++ (ds.map (fun d => c + d)).filter
        (fun q => decide (inB L q) && (g q == RQ3.OAK)) ∧
    (RQ3.inspectLoop L p_burn_oak g c ds stream log).2.1 =
      stream.drop ((ds.map (fun d => c + d)).filter
        (fun q => decide (inB L q) && (g q == RQ3.OAK))).length :=
  ⟨inspectLoop_log L p_burn_oak g c ds stream log,
    inspectLoop_stream L p_burn_oak g c ds stream log⟩

/-- C4 counterexample: on `gOak`, the oak cell `(1, 1)` is discovered twice
(once from each burning pine neighbor): its roll fails the first time
(roll 1/2, not below `p_burn_oak = 1/2`) and is re-rolled on the second
discovery (roll 0), after which the cell burns.  The roll count 2 for one
cell in one fire event refutes the claim that the probability is evaluated at
most once per cell and that a failed roll fixes the fate of the cell. -/
theorem oak_roll_rerolled :
    gOak (1, 1) = RQ3.OAK ∧
    (RQ3.burn_step_inhomogeneous gOak 0 0 2 (mkRat 1 2) 4 [mkRat 1 2, 0]).oakLog
      = [(1, 1), (1, 1)] ∧
    ((RQ3.burn_step_inhomogeneous gOak 0 0 2 (mkRat 1 2) 4
      [mkRat 1 2, 0]).oakLog.count (1, 1) = 2) ∧
    ¬ ((RQ3.burn_step_inhomogeneous gOak 0 0 2 (mkRat 1 2) 4
      [mkRat 1 2, 0]).oakLog.count (1, 1) ≤ 1) ∧
    (RQ3.burn_step_inhomogeneous gOak 0 0 2 (mkRat 1 2) 4
      [mkRat 1 2, 0]).grid (1, 1) = RQ3.EMPTY ∧
    ¬ (mkRat 1 2 < mkRat 1 2) ∧ ((0 : ℚ) < mkRat 1 2) := by decide

/-- C1: evaluation of the foundation `step` at the failing input of the code
bug.  On a 1 by 1 grid holding one tree, with `f = 1`, `suppress = 0` and
`advanced_state = False`, after `step` returns the struck cell holds the
transient FIRE state 2 (neither EMPTY nor TREE), contradicting the claim that
in basic mode only EMPTY and TREE persist between ticks; the fire size 1 is
recorded.  The FIRE state is cleared only at the start of the next tick. -/
theorem step_basic_mode_keeps_fire_state :
    g1x1 (0, 0) = 1 ∧
    (DS.step g1x1 [] 1 0 1 0 false [] [0] sortedSample).1 (0, 0) = 2 ∧
    ¬ ((DS.step g1x1 [] 1 0 1 0 false [] [0] sortedSample).1 (0, 0) = 0 ∨
      (DS.step g1x1 [] 1 0 1 0 false [] [0] sortedSample).1 (0, 0) = 1) ∧
    (DS.step g1x1 [] 1 0 1 0 false [] [0] sortedSample).2 = [1] := by decide

/-- C5: evaluation of `step_inhomogeneous` at the failing input of the code
bug.  On a 1 by 1 grid fully covered by a pine (no EMPTY cell at the start of
the tick), with `f = 1` and any remaining parameters and streams, the entire
growth-lightning-burn body is skipped because it is nested under the
`num_empty > 0` test: the grid and fire-size list are returned unchanged and
no random draw is consumed, although the claim requires one ignition draw per
tree cell (which with `f = 1` would burn the tree). -/
theorem step_inhomogeneous_skips_ignition_when_full (p oak_ratio p_burn_oak : ℚ)
    (growthRolls typeRolls lightRolls oakStream : List ℚ) :
    RQ3.step_inhomogeneous gPine [] 1 p 1 oak_ratio p_burn_oak growthRolls
      typeRolls lightRolls oakStream = (gPine, [], oakStream) ∧
    gPine (0, 0) = RQ3.PINE := ⟨rfl, rfl⟩

-- C8 support
theorem runSteps_shape (L : ℤ) (p f : ℚ) (suppress : ℕ) (advanced_state : Bool)
    (growth light : ℕ → List ℚ) (sample : Finset Pos → ℕ → List Pos) :
    ∀ (idxs : List ℕ) (g : Grid) (fs : List ℕ),
      (SIM.runSteps L p f suppress advanced_state growth light sample idxs g fs).length
        = idxs.length ∧
      (SIM.runSteps L p f suppress advanced_state growth light sample idxs g fs).map
        (fun t => t.2.2) = idxs.map (fun i => i + 1) := by
  intro idxs
  induction idxs with
  | nil => intro g fs; exact ⟨rfl, rfl⟩
  | cons i is ih =>
    intro g fs
    simp only [SIM.runSteps, List.length_cons, List.map_cons]
    constructor
    · rw [(ih _ _).1]
    · rw [(ih _ _).2]

/-- C8 (amended): the core performs no parameter validation.  For every
`L`, `p`, `f` (including probabilities outside the unit interval and
non-positive sizes), `simulate_drosselschwab_steps` proceeds to tick and
yields exactly one `(grid, fire sizes, step index)` snapshot per tick, with
step indices `1, ..., steps` on a fresh run and `steps - start_step`
snapshots on a resumed run; there is no InvalidParameter condition and no
clamping anywhere in the core. -/
theorem simulate_steps_no_validation (L : ℤ) (p f : ℚ) (steps suppress : ℕ)
    (advanced_state : Bool) (growth light : ℕ → List ℚ)
    (sample : Finset Pos → ℕ → List Pos) (g0 : Grid) (fs0 : List ℕ)
    (start : ℕ) :
    (SIM.simulate_drosselschwab_steps L p f steps suppress advanced_state none
      growth light sample).length = steps ∧
    (SIM.simulate_drosselschwab_steps L p f steps suppress advanced_state none
      growth light sample).map (fun t => t.2.2) =
      (List.range steps).map (fun i => i + 1) ∧
    (SIM.simulate_drosselschwab_steps L p f steps suppress advanced_state
      (some (g0, fs0, start)) growth light sample).length = steps - start := by
  refine ⟨?_, ?_, ?_⟩
  · rw [SIM.simulate_drosselschwab_steps, (runSteps_shape _ _ _ _ _ _ _ _ _ _ _).1,
      List.length_range']
  · rw [SIM.simulate_drosselschwab_steps, (runSteps_shape _ _ _ _ _ _ _ _ _ _ _).2,
      List.range_eq_range']
  · rw [SIM.simulate_drosselschwab_steps, (runSteps_shape _ _ _ _ _ _ _ _ _ _ _).1,
      List.length_range']

-- C8 counterexample: out-of-range p = 2 is accepted, grid allocated and grown
/-- C8 counterexample: calling the step generator with the out-of-range
growth probability `p = 2` does not fail fast: the grid is allocated, the
tick runs, a snapshot with step index 1 is yielded, and the single cell has
grown into a tree (its uniform roll 0 compares below the un-validated,
un-clamped `p = 2`). -/
theorem simulate_accepts_out_of_range_p :
    ¬ ((2 : ℚ) ≤ 1) ∧
    (SIM.simulate_drosselschwab_steps 1 2 0 1 0 false none (fun _ => [0])
      (fun _ => [0]) sortedSample).length = 1 ∧
    ((SIM.simulate_drosselschwab_steps 1 2 0 1 0 false none (fun _ => [0])
      (fun _ => [0]) sortedSample).headD (fun _ => 0, [], 0)).1 (0, 0) = 1 ∧
    ((SIM.simulate_drosselschwab_steps 1 2 0 1 0 false none (fun _ => [0])
      (fun _ => [0]) sortedSample).headD (fun _ => 0, [], 0)).2.2 = 1 := by
  refine ⟨by norm_num, by decide, by decide, by decide⟩

-- ==== Cluster scan correctness ====

theorem Reach.trans' {ok : Pos → Prop} {nb : List Pos} {a b c : Pos}
    (h1 : Reach ok nb a b) (h2 : Reach ok nb b c) : Reach ok nb a c := by
  induction h2 with
  | refl h => exact h1
  | tail d hr hd hok ih => exact Reach.tail d ih hd hok

theorem Reach.symm' {ok : Pos → Prop} {nb : List Pos} {a b : Pos}
    (hsym : ∀ d ∈ nb, -d ∈ nb) (h : Reach ok nb a b) : Reach ok nb b a := by
  induction h with
  | refl h => exact Reach.refl _ h
  | tail d hr hd hok ih =>
    rename_i b'
    have hstep : Reach ok nb (b' + d) b' := by
      have hs := Reach.tail (-d) (Reach.refl (b' + d) hok) (hsym d hd)
        (by rw [add_neg_cancel_right]; exact Reach.ok_of_reach hr)
      rwa [add_neg_cancel_right] at hs
    exact hstep.trans' ih

theorem nbrsOf_nodup (connectivity : ℕ) : (nbrsOf connectivity).Nodup := by
  unfold nbrsOf
  by_cases h : connectivity = 8
  · rw [if_pos h]; decide
  · rw [if_neg h]; decide

theorem nbrsOf_symm (connectivity : ℕ) :
    ∀ d ∈ nbrsOf connectivity, -d ∈ nbrsOf connectivity := by
  unfold nbrsOf
  by_cases h : connectivity = 8
  · rw [if_pos h]; decide
  · rw [if_neg h]; decide

theorem clusterNbrs_spec (L : ℤ) (live : ℕ → Bool) (g : Grid) (c : Pos) :
    ∀ (ds : List Pos) (visited : Pos → Bool), (ds.map (fun d => c + d)).Nodup →
      (clusterNbrs L live g c ds visited).1 =
        (ds.map (fun d => c + d)).filter
          (fun q => decide (inB L q) && !visited q && live (g q)) ∧
      (∀ q, (clusterNbrs L live g c ds visited).2 q =
        (visited q || decide (q ∈ (clusterNbrs L live g c ds visited).1))) := by
  intro ds
  induction ds with
  | nil =>
    intro visited _
    exact ⟨rfl, fun q => by simp [clusterNbrs]⟩
  | cons d ds ih =>
    intro visited hnd
    have hnd' : (ds.map (fun d => c + d)).Nodup := (List.nodup_cons.mp hnd).2
    have hhead : c + d ∉ ds.map (fun d => c + d) := (List.nodup_cons.mp hnd).1
    simp only [clusterNbrs, List.map_cons, List.filter_cons]
    by_cases hcond : inB L (c + d) ∧ visited (c + d) = false ∧ live (g (c + d)) = true
    · rw [if_pos hcond]
      have hbool : (decide (inB L (c + d)) && !visited (c + d) && live (g (c + d)))
          = true := by
        simp [hcond.1, hcond.2.1, hcond.2.2]
      obtain ⟨ih1, ih2⟩ := ih (Function.update visited (c + d) true) hnd'
      have hfeq : (ds.map (fun d => c + d)).filter
            (fun q => decide (inB L q) && !(Function.update visited (c + d) true q)
              && live (g q)) =
          (ds.map (fun d => c + d)).filter
            (fun q => decide (inB L q) && !visited q && live (g q)) := by
        apply List.filter_congr
        intro q hq
        have hqne : q ≠ c + d := fun h => hhead (h ▸ hq)
        rw [Function.update_noteq hqne]
      rw [hbool]
      simp only [if_true]
      constructor
      · rw [ih1, hfeq]
      · intro q
        rw [ih2 q, ih1, hfeq]
        by_cases hq : q = c + d
        · subst hq
          rw [Function.update_same]
          simp
        · rw [Function.update_noteq hq]
          simp only [List.mem_cons]
          by_cases hqm : q ∈ (ds.map (fun d => c + d)).filter
              (fun q => decide (inB L q) && !visited q && live (g q))
          · simp [hqm]
          · simp [hqm, hq]
    · rw [if_neg hcond]
      have hbool : (decide (inB L (c + d)) && !visited (c + d) && live (g (c + d)))
          = false := by
        rcases Decidable.not_and_iff_or_not.mp hcond with h | h
        · simp [h]
        · rcases Decidable.not_and_iff_or_not.mp h with h' | h'
          · simp only [Bool.not_eq_false] at h'
            simp [h']
          · simp [h']
      obtain ⟨ih1, ih2⟩ := ih visited hnd'
      rw [hbool]
      simp only [Bool.false_eq_true, if_false]
      exact ⟨ih1, ih2⟩

theorem addLeft_injective (c : Pos) :
    Function.Injective (fun d : Pos => c + d) := fun x y h => by
  simpa using congrArg (fun z => -c + z) h

theorem floodInv_init {live : ℕ → Bool} {g : Grid} {L : ℤ} (nb : List Pos)
    {root : Pos} {visited0 : Pos → Bool}
    (hok : okLive live g L root) (h0 : visited0 root = false) :
    FloodInv live g L nb root visited0 [root]
      (Function.update visited0 root true) 0 := by
  refine ⟨?_, ?_, ?_, ?_, ?_, ?_, ?_⟩
  · intro p hp
    rw [Function.update_apply]
    by_cases hpr : p = root
    · rw [if_pos hpr]
    · rw [if_neg hpr]; exact hp
  · intro p hp hp0
    by_cases hpr : p = root
    · subst hpr; exact Reach.refl _ hok
    · rw [Function.update_noteq hpr] at hp
      rw [hp] at hp0
      exact absurd hp0 (by simp)
  · intro p hp
    rw [List.mem_singleton] at hp
    subst hp
    exact ⟨Function.update_same _ _ _, h0⟩
  · exact List.nodup_singleton root
  · intro p hp hp0 hps
    by_cases hpr : p = root
    · subst hpr; exact absurd (List.mem_singleton_self p) hps
    · rw [Function.update_noteq hpr] at hp
      rw [hp] at hp0
      exact absurd hp0 (by simp)
  · exact Function.update_same _ _ _
  · have : (cellsFinset L).filter
        (fun p => Function.update visited0 root true p = true ∧ visited0 p = false)
        = {root} := by
      ext p
      simp only [Finset.mem_filter, Finset.mem_singleton, Function.update_apply]
      constructor
      · rintro ⟨_, hv, h0'⟩
        by_cases hpr : p = root
        · exact hpr
        · rw [if_neg hpr] at hv; rw [hv] at h0'; exact absurd h0' (by simp)
      · rintro rfl
        exact ⟨mem_cellsFinset.mpr hok.1, by rw [if_pos rfl], h0⟩
    rw [this]
    rfl

theorem floodInv_step {live : ℕ → Bool} {g : Grid} {L : ℤ} {nb : List Pos}
    {root : Pos} {visited0 : Pos → Bool} {c : Pos} {rest : List Pos}
    {visited : Pos → Bool} {size : ℕ}
    (hnb : nb.Nodup)
    (hdisj : ∀ p, Reach (okLive live g L) nb root p → visited0 p = false)
    (hinv : FloodInv live g L nb root visited0 (c :: rest) visited size) :
    FloodInv live g L nb root visited0
      ((clusterNbrs L live g c nb visited).1.reverse ++ rest)
      (clusterNbrs L live g c nb visited).2 (size + 1) := by
  have hmapnd : (nb.map (fun d => c + d)).Nodup := hnb.map (addLeft_injective c)
  obtain ⟨hF, hvis⟩ := clusterNbrs_spec L live g c nb visited hmapnd
  set F := (clusterNbrs L live g c nb visited).1 with hFdef
  have hFmem : ∀ q, q ∈ F ↔ ((∃ d ∈ nb, q = c + d) ∧ inB L q ∧
      visited q = false ∧ live (g q) = true) := by
    intro q
    rw [hF]
    simp only [List.mem_filter, List.mem_map, Bool.and_eq_true,
      decide_eq_true_eq, Bool.not_eq_true']
    constructor
    · rintro ⟨⟨d, hd, rfl⟩, ⟨hin, hnv⟩, hlv⟩
      exact ⟨⟨d, hd, rfl⟩, hin, hnv, hlv⟩
    · rintro ⟨⟨d, hd, rfl⟩, hin, hnv, hlv⟩
      exact ⟨⟨d, hd, rfl⟩, ⟨hin, hnv⟩, hlv⟩
  have hcV := hinv.stackV c (List.mem_cons_self c rest)
  have hcR := hinv.newR c hcV.1 hcV.2
  have hFR : ∀ q ∈ F, Reach (okLive live g L) nb root q := by
    intro q hq
    obtain ⟨⟨d, hd, rfl⟩, hin, _, hlv⟩ := (hFmem _).mp hq
    exact Reach.tail d hcR hd ⟨hin, hlv⟩
  have hFnd : F.Nodup := by
    rw [hF]; exact hmapnd.filter _
  have hvis' : ∀ q, (clusterNbrs L live g c nb visited).2 q = true ↔
      (visited q = true ∨ q ∈ F) := by
    intro q
    rw [hvis q]
    simp
  refine ⟨?_, ?_, ?_, ?_, ?_, ?_, ?_⟩
  · intro p hp
    exact (hvis' p).mpr (Or.inl (hinv.mono p hp))
  · intro p hp hp0
    rcases (hvis' p).mp hp with h | h
    · exact hinv.newR p h hp0
    · exact hFR p h
  · intro p hp
    rcases List.mem_append.mp hp with h | h
    · have hpF := List.mem_reverse.mp h
      exact ⟨(hvis' p).mpr (Or.inr hpF), hdisj p (hFR p hpF)⟩
    · have := hinv.stackV p (List.mem_cons_of_mem _ h)
      exact ⟨(hvis' p).mpr (Or.inl this.1), this.2⟩
  · refine List.Nodup.append (List.nodup_reverse.mpr hFnd) ((List.nodup_cons.mp hinv.stackND).2) ?_
    intro q hqF hqrest
    have h1 := ((hFmem q).mp (List.mem_reverse.mp hqF)).2.2.1
    have h2 := (hinv.stackV q (List.mem_cons_of_mem _ hqrest)).1
    rw [h1] at h2
    exact absurd h2 (by simp)
  · intro p hp hp0 hps d hd hok
    by_cases hpc : p = c
    · subst hpc
      by_cases hv : visited (p + d) = true
      · exact (hvis' _).mpr (Or.inl hv)
      · refine (hvis' _).mpr (Or.inr ((hFmem _).mpr
          ⟨⟨d, hd, rfl⟩, hok.1, ?_, hok.2⟩))
        exact Bool.not_eq_true _ ▸ (by simpa using hv)
    · rcases (hvis' p).mp hp with hpv | hpF
      · have hpnotold : p ∉ c :: rest := by
          intro hmem
          rcases List.mem_cons.mp hmem with h | h
          · exact hpc h
          · exact hps (List.mem_append_right _ h)
        exact (hvis' _).mpr (Or.inl
          (hinv.closed p hpv hp0 hpnotold d hd hok))
      · exact absurd (List.mem_append_left _ (List.mem_reverse.mpr hpF)) hps
  · exact (hvis' root).mpr (Or.inl hinv.rootV)
  · have hFsub : F.toFinset ⊆ (cellsFinset L).filter
        (fun p => visited p = true ∧ visited0 p = false) →
        True := fun _ => trivial
    have hsplit : (cellsFinset L).filter
        (fun p => (clusterNbrs L live g c nb visited).2 p = true ∧
          visited0 p = false) =
        ((cellsFinset L).filter
          (fun p => visited p = true ∧ visited0 p = false)) ∪ F.toFinset := by
      ext p
      simp only [Finset.mem_filter, Finset.mem_union, List.mem_toFinset, hvis' p]
      constructor
      · rintro ⟨hcell, hv | hpF, h0⟩
        · exact Or.inl ⟨hcell, hv, h0⟩
        · exact Or.inr hpF
      · rintro (⟨hcell, hv, h0⟩ | hpF)
        · exact ⟨hcell, Or.inl hv, h0⟩
        · exact ⟨mem_cellsFinset.mpr ((hFmem p).mp hpF).2.1, Or.inr hpF,
            hdisj p (hFR p hpF)⟩
    have hdisjF : Disjoint ((cellsFinset L).filter
        (fun p => visited p = true ∧ visited0 p = false)) F.toFinset := by
      rw [Finset.disjoint_right]
      intro q hqF hqfil
      have h1 := ((hFmem q).mp (List.mem_toFinset.mp hqF)).2.2.1
      have h2 := (Finset.mem_filter.mp hqfil).2.1
      rw [h1] at h2
      exact absurd h2 (by simp)
    rw [hsplit, Finset.card_union_of_disjoint hdisjF,
      List.toFinset_card_of_nodup hFnd]
    have hold := hinv.sizeEq
    simp only [List.length_append, List.length_reverse, List.length_cons] at *
    omega

theorem floodRun {live : ℕ → Bool} {g : Grid} {L : ℤ} {nb : List Pos}
    {root : Pos} {visited0 : Pos → Bool}
    (hnb : nb.Nodup)
    (hdisj : ∀ p, Reach (okLive live g L) nb root p → visited0 p = false) :
    ∀ (fuel : ℕ) (stack : List Pos) (visited : Pos → Bool) (size : ℕ),
      FloodInv live g L nb root visited0 stack visited size →
      (nb.length + 1) * ((cellsFinset L).filter
        (fun p => live (g p) = true ∧ visited p = false)).card + stack.length
        ≤ fuel →
      FloodInv live g L nb root visited0 []
        (clusterFlood L nb live g fuel stack visited size).1
        (clusterFlood L nb live g fuel stack visited size).2 := by
  intro fuel
  induction fuel with
  | zero =>
    intro stack visited size hinv hfuel
    have hs : stack = [] := List.length_eq_zero.mp (by omega)
    subst hs
    exact hinv
  | succ fuel ih =>
    intro stack visited size hinv hfuel
    cases stack with
    | nil => exact hinv
    | cons c rest =>
      simp only [clusterFlood]
      have hmapnd : (nb.map (fun d => c + d)).Nodup :=
        hnb.map (addLeft_injective c)
      obtain ⟨hF, hvis⟩ := clusterNbrs_spec L live g c nb visited hmapnd
      apply ih _ _ _ (floodInv_step hnb hdisj hinv)
      -- measure decrease
      have hvis' : ∀ q, (clusterNbrs L live g c nb visited).2 q = true ↔
          (visited q = true ∨ q ∈ (clusterNbrs L live g c nb visited).1) := by
        intro q
        rw [hvis q]
        simp
      have hFnd : (clusterNbrs L live g c nb visited).1.Nodup := by
        rw [hF]; exact hmapnd.filter _
      have hsub : (clusterNbrs L live g c nb visited).1.toFinset ⊆
          (cellsFinset L).filter
            (fun p => live (g p) = true ∧ visited p = false) := by
        intro q hq
        rw [List.mem_toFinset, hF] at hq
        simp only [List.mem_filter, Bool.and_eq_true, decide_eq_true_eq,
          Bool.not_eq_true'] at hq
        exact Finset.mem_filter.mpr
          ⟨mem_cellsFinset.mpr hq.2.1.1, hq.2.2, hq.2.1.2⟩
      have hsplit : (cellsFinset L).filter
          (fun p => live (g p) = true ∧
            (clusterNbrs L live g c nb visited).2 p = false) =
          ((cellsFinset L).filter
            (fun p => live (g p) = true ∧ visited p = false)) \
            (clusterNbrs L live g c nb visited).1.toFinset := by
        ext p
        simp only [Finset.mem_filter, Finset.mem_sdiff, List.mem_toFinset]
        constructor
        · rintro ⟨hcell, hlv, hnv⟩
          have := hvis' p
          rw [hnv] at this
          simp only [Bool.false_eq_true, false_iff, not_or,
            Bool.not_eq_true] at this
          exact ⟨⟨hcell, hlv, this.1⟩, this.2⟩
        · rintro ⟨⟨hcell, hlv, hnv⟩, hnF⟩
          refine ⟨hcell, hlv, ?_⟩
          by_cases hv : (clusterNbrs L live g c nb visited).2 p = true
          · rcases (hvis' p).mp hv with h | h
            · rw [h] at hnv; exact absurd hnv (by simp)
            · exact absurd h hnF
          · exact Bool.not_eq_true _ ▸ (by simpa using hv)
      have hcard : ((cellsFinset L).filter
          (fun p => live (g p) = true ∧
            (clusterNbrs L live g c nb visited).2 p = false)).card +
          (clusterNbrs L live g c nb visited).1.length =
          ((cellsFinset L).filter
            (fun p => live (g p) = true ∧ visited p = false)).card := by
        rw [hsplit, Finset.card_sdiff hsub, List.toFinset_card_of_nodup hFnd]
        have := Finset.card_le_card hsub
        rw [List.toFinset_card_of_nodup hFnd] at this
        omega
      have hFk : (clusterNbrs L live g c nb visited).1.length ≤ nb.length := by
        rw [hF]
        calc ((nb.map (fun d => c + d)).filter _).length ≤
            (nb.map (fun d => c + d)).length := List.length_filter_le _ _
          _ = nb.length := List.length_map _ _
      have hmul : (nb.length + 1) * ((cellsFinset L).filter
            (fun p => live (g p) = true ∧ visited p = false)).card =
          (nb.length + 1) * ((cellsFinset L).filter
            (fun p => live (g p) = true ∧
              (clusterNbrs L live g c nb visited).2 p = false)).card +
          (nb.length + 1) * (clusterNbrs L live g c nb visited).1.length := by
        rw [← Nat.mul_add, hcard]
      have hBge : (clusterNbrs L live g c nb visited).1.length ≤
          (nb.length + 1) * (clusterNbrs L live g c nb visited).1.length :=
        Nat.le_mul_of_pos_left _ (by omega)
      simp only [List.length_append, List.length_reverse, List.length_cons] at *
      omega

theorem clusterFlood_spec {live : ℕ → Bool} {g : Grid} {L : ℤ} {nb : List Pos}
    {root : Pos} {visited0 : Pos → Bool}
    (hnb : nb.Nodup) (hok : okLive live g L root)
    (hdisj : ∀ p, Reach (okLive live g L) nb root p → visited0 p = false) :
    (∀ p, (clusterFlood L nb live g (gridFuel L nb) [root]
        (Function.update visited0 root true) 0).1 p = true ↔
      (visited0 p = true ∨ Reach (okLive live g L) nb root p)) ∧
    (clusterFlood L nb live g (gridFuel L nb) [root]
        (Function.update visited0 root true) 0).2 =
      Set.ncard {p | Reach (okLive live g L) nb root p} := by
  have h0 : visited0 root = false := hdisj root (Reach.refl root hok)
  have hinit := floodInv_init nb hok h0
  have hle : ((cellsFinset L).filter (fun p => live (g p) = true ∧
      Function.update visited0 root true p = false)).card ≤
      L.toNat * L.toNat := by
    calc _ ≤ (cellsFinset L).card := Finset.card_filter_le _ _
      _ = L.toNat * L.toNat := cellsFinset_card
  have hmul : (nb.length + 1) * ((cellsFinset L).filter
      (fun p => live (g p) = true ∧
        Function.update visited0 root true p = false)).card ≤
      (nb.length + 1) * (L.toNat * L.toNat) := Nat.mul_le_mul_left _ hle
  have hfin := floodRun hnb hdisj (gridFuel L nb) [root]
    (Function.update visited0 root true) 0 hinit
    (by unfold gridFuel; simp only [List.length_singleton]; omega)
  have hV : ∀ p, Reach (okLive live g L) nb root p →
      ((clusterFlood L nb live g (gridFuel L nb) [root]
        (Function.update visited0 root true) 0).1 p = true ∧
        visited0 p = false) := by
    intro p hp
    induction hp with
    | refl h => exact ⟨hfin.rootV, h0⟩
    | tail d hr hd hok2 ih =>
      have hnext := hfin.closed _ ih.1 ih.2 (by simp) d hd hok2
      exact ⟨hnext, hdisj _ (Reach.tail d hr hd hok2)⟩
  constructor
  · intro p
    constructor
    · intro hp
      by_cases hp0 : visited0 p = true
      · exact Or.inl hp0
      · exact Or.inr (hfin.newR p hp
          (Bool.not_eq_true _ ▸ (by simpa using hp0)))
    · rintro (hp | hp)
      · exact hfin.mono p hp
      · exact (hV p hp).1
  · have hseteq : {p | Reach (okLive live g L) nb root p} =
        ↑((cellsFinset L).filter
          (fun p => (clusterFlood L nb live g (gridFuel L nb) [root]
            (Function.update visited0 root true) 0).1 p = true ∧
            visited0 p = false)) := by
      ext p
      simp only [Set.mem_setOf_eq, Finset.coe_filter, Set.mem_setOf_eq,
        Finset.mem_filter]
      constructor
      · intro hp
        exact ⟨mem_cellsFinset.mpr (Reach.ok_of_reach hp).1, (hV p hp).1,
          (hV p hp).2⟩
      · rintro ⟨_, hv, h0'⟩
        exact hfin.newR p hv h0'
    rw [hseteq, Set.ncard_coe_Finset]
    have := hfin.sizeEq
    simpa using this

theorem mem_scanPairs {L : ℤ} {p : Pos} : p ∈ scanPairs L ↔ inB L p := by
  unfold scanPairs
  simp only [List.mem_flatMap, List.mem_map, List.mem_range]
  constructor
  · rintro ⟨i, hi, j, hj, hp⟩
    subst hp
    exact ⟨by omega, by omega, by omega, by omega⟩
  · intro h
    obtain ⟨h1, h2, h3, h4⟩ := h
    refine ⟨p.1.toNat, by omega, p.2.toNat, by omega, ?_⟩
    have e1 : (p.1.toNat : ℤ) = p.1 := Int.toNat_of_nonneg h1
    have e2 : (p.2.toNat : ℤ) = p.2 := Int.toNat_of_nonneg h3
    rw [e1, e2]

theorem clusterScan_spec {live : ℕ → Bool} {g : Grid} {L : ℤ} {nb : List Pos}
    (hnb : nb.Nodup) (hsym : ∀ d ∈ nb, -d ∈ nb) :
    ∀ (cs : List Pos) (visited : Pos → Bool) (clusters : List ℕ)
      (roots : List Pos),
      (∀ p ∈ cs, inB L p) →
      clusters = roots.map
        (fun r => Set.ncard {p | Reach (okLive live g L) nb r p}) →
      roots.Pairwise (fun a b => ¬ Reach (okLive live g L) nb a b) →
      (∀ r ∈ roots, okLive live g L r) →
      (∀ p, visited p = true ↔ ∃ r ∈ roots, Reach (okLive live g L) nb r p) →
      ∃ newRoots : List Pos,
        newRoots.Sublist cs ∧
        (clusterScan L nb live g cs visited clusters).2 =
          (roots ++ newRoots).map
            (fun r => Set.ncard {p | Reach (okLive live g L) nb r p}) ∧
        (roots ++ newRoots).Pairwise
          (fun a b => ¬ Reach (okLive live g L) nb a b) ∧
        (∀ r ∈ roots ++ newRoots, okLive live g L r) ∧
        (∀ p, (clusterScan L nb live g cs visited clusters).1 p = true ↔
          ∃ r ∈ roots ++ newRoots, Reach (okLive live g L) nb r p) ∧
        (∀ p ∈ cs, okLive live g L p →
          (clusterScan L nb live g cs visited clusters).1 p = true) := by
  intro cs
  induction cs with
  | nil =>
    intro visited clusters roots _ h1 h2 h3 h4
    refine ⟨[], List.Sublist.refl [], ?_, ?_, ?_, ?_, ?_⟩
    · simpa using h1
    · simpa using h2
    · simpa using h3
    · intro p
      show visited p = true ↔ _
      rw [h4 p]
      simp
    · intro p hp; exact absurd hp (List.not_mem_nil p)
  | cons c cs ih =>
    intro visited clusters roots hcs h1 h2 h3 h4
    have hinBc : inB L c := hcs c (List.mem_cons_self c cs)
    have hcs' : ∀ p ∈ cs, inB L p := fun p hp => hcs p (List.mem_cons_of_mem _ hp)
    simp only [clusterScan]
    by_cases htake : live (g c) = true ∧ visited c = false
    · rw [if_pos htake]
      have hokc : okLive live g L c := ⟨hinBc, htake.1⟩
      have hdisj : ∀ p, Reach (okLive live g L) nb c p → visited p = false := by
        intro p hp
        by_cases hv : visited p = true
        · obtain ⟨r, hr, hrp⟩ := (h4 p).mp hv
          have hrc : Reach (okLive live g L) nb r c :=
            hrp.trans' (hp.symm' hsym)
          have : visited c = true := (h4 c).mpr ⟨r, hr, hrc⟩
          rw [htake.2] at this
          exact absurd this (by simp)
        · exact Bool.not_eq_true _ ▸ (by simpa using hv)
      obtain ⟨hfv, hfsize⟩ := clusterFlood_spec hnb hokc hdisj
      have hpair' : (roots ++ [c]).Pairwise
          (fun a b => ¬ Reach (okLive live g L) nb a b) := by
        rw [List.pairwise_append]
        refine ⟨h2, List.pairwise_singleton _ _, ?_⟩
        intro r hr c2 hc2
        rw [List.mem_singleton] at hc2
        intro hreach
        rw [hc2] at hreach
        have hvc : visited c = true := (h4 c).mpr ⟨r, hr, hreach⟩
        rw [htake.2] at hvc
        exact absurd hvc (by simp)
      have hok' : ∀ r ∈ roots ++ [c], okLive live g L r := by
        intro r hr
        rcases List.mem_append.mp hr with h | h
        · exact h3 r h
        · rw [List.mem_singleton] at h; subst h; exact hokc
      have hvis' : ∀ p, (clusterFlood L nb live g (gridFuel L nb) [c]
          (Function.update visited c true) 0).1 p = true ↔
          ∃ r ∈ roots ++ [c], Reach (okLive live g L) nb r p := by
        intro p
        rw [hfv p, h4 p]
        constructor
        · rintro (⟨r, hr, hrp⟩ | hp)
          · exact ⟨r, List.mem_append_left _ hr, hrp⟩
          · exact ⟨c, List.mem_append_right _ (List.mem_singleton_self c), hp⟩
        · rintro ⟨r, hr, hrp⟩
          rcases List.mem_append.mp hr with h | h
          · exact Or.inl ⟨r, h, hrp⟩
          · rw [List.mem_singleton] at h; subst h; exact Or.inr hrp
      have h1' : clusters ++ [(clusterFlood L nb live g (gridFuel L nb) [c]
          (Function.update visited c true) 0).2] =
          (roots ++ [c]).map
            (fun r => Set.ncard {p | Reach (okLive live g L) nb r p}) := by
        rw [List.map_append, ← h1, hfsize]
        rfl
      obtain ⟨nr, hsub, hc1, hc2, hc3, hc4, hc5⟩ :=
        ih (clusterFlood L nb live g (gridFuel L nb) [c]
          (Function.update visited c true) 0).1
          (clusters ++ [(clusterFlood L nb live g (gridFuel L nb) [c]
            (Function.update visited c true) 0).2])
          (roots ++ [c]) hcs' h1' hpair' hok' hvis'
      have hassoc : roots ++ [c] ++ nr = roots ++ (c :: nr) := by
        rw [List.append_assoc]
        rfl
      refine ⟨c :: nr, hsub.cons₂ c, ?_, ?_, ?_, ?_, ?_⟩
      · rw [hc1, hassoc]
      · rw [← hassoc]; exact hc2
      · rw [← hassoc]; exact hc3
      · intro p; rw [hc4 p, hassoc]
      · intro p hp hokp
        rcases List.mem_cons.mp hp with h | h
        · subst h
          rw [hc4 p, hassoc]
          exact ⟨p, List.mem_append_right _ (List.mem_cons_self p nr),
            Reach.refl p hokp⟩
        · exact hc5 p h hokp
    · rw [if_neg htake]
      obtain ⟨nr, hsub, hc1, hc2, hc3, hc4, hc5⟩ :=
        ih visited clusters roots hcs' h1 h2 h3 h4
      refine ⟨nr, hsub.cons c, hc1, hc2, hc3, hc4, ?_⟩
      intro p hp hokp
      rcases List.mem_cons.mp hp with h | h
      · subst h
        have hvc : visited p = true := by
          by_cases hv : visited p = true
          · exact hv
          · exact absurd ⟨hokp.2, Bool.not_eq_true _ ▸ (by simpa using hv)⟩ htake
        rw [hc4 p]
        obtain ⟨r, hr, hrp⟩ := (h4 p).mp hvc
        exact ⟨r, List.mem_append_left _ hr, hrp⟩
      · exact hc5 p h hokp

theorem cluster_wrapper_spec (live : ℕ → Bool) (g : Grid) (L : ℤ)
    (connectivity : ℕ) :
    ∃ roots : List Pos,
      roots.Sublist (scanPairs L) ∧
      (if liveCount live g L = 0 then [] else
        (clusterScan L (nbrsOf connectivity) live g (scanPairs L)
          (fun _ => false) []).2) =
        roots.map (fun r => Set.ncard
          {p | Reach (okLive live g L) (nbrsOf connectivity) r p}) ∧
      roots.Pairwise
        (fun a b => ¬ Reach (okLive live g L) (nbrsOf connectivity) a b) ∧
      (∀ r ∈ roots, okLive live g L r) ∧
      (∀ p, okLive live g L p → ∃ r ∈ roots,
        Reach (okLive live g L) (nbrsOf connectivity) r p) := by
  by_cases h0 : liveCount live g L = 0
  · rw [if_pos h0]
    refine ⟨[], List.nil_sublist _, by simp, List.Pairwise.nil, by simp, ?_⟩
    intro p hp
    exfalso
    have hmem : p ∈ (cellsFinset L).filter (fun q => live (g q) = true) :=
      Finset.mem_filter.mpr ⟨mem_cellsFinset.mpr hp.1, hp.2⟩
    have hpos := Finset.card_pos.mpr ⟨p, hmem⟩
    rw [liveCount] at h0
    omega
  · rw [if_neg h0]
    obtain ⟨nr, hsub, h1, h2, h3, h4, h5⟩ :=
      clusterScan_spec (nbrsOf_nodup connectivity) (nbrsOf_symm connectivity)
        (scanPairs L) (fun _ => false) [] [] (fun p hp => mem_scanPairs.mp hp)
        rfl List.Pairwise.nil (by simp) (by intro p; simp)
    refine ⟨nr, hsub, by simpa using h1, by simpa using h2,
      by simpa using h3, ?_⟩
    intro p hp
    have hcov := h5 p (mem_scanPairs.mpr hp.1) hp
    have hex := (h4 p).mp hcov
    simpa using hex

/-- C7 (amended): both `_compute_cluster_sizes` variants return, in row-major
discovery order (the returned roots list is a sublist of the row-major scan),
the sizes of the connected components into which the counted cells are
partitioned under the chosen adjacency: the foundation variant counts exactly
the TREE (= 1) cells -- not all non-EMPTY cells as the claim states -- while
the rq3 variant counts all non-EMPTY cells; the listed components are
pairwise disjoint and cover every counted cell.  In particular, on the grid
with two disjoint TREE components of sizes 3 and 7 the foundation variant
returns [3, 7].  The embedding is pure: the scan only reads the grid. -/
theorem cluster_sizes_components (g : Grid) (L : ℤ) (connectivity : ℕ) :
    (∃ roots : List Pos,
      roots.Sublist (scanPairs L) ∧
      SIM.compute_cluster_sizes g L connectivity =
        roots.map (fun r => Set.ncard
          {p | Reach (okLive (fun v => v == 1) g L) (nbrsOf connectivity) r p}) ∧
      roots.Pairwise (fun a b =>
        ¬ Reach (okLive (fun v => v == 1) g L) (nbrsOf connectivity) a b) ∧
      (∀ r ∈ roots, okLive (fun v => v == 1) g L r) ∧
      (∀ p, okLive (fun v => v == 1) g L p → ∃ r ∈ roots,
        Reach (okLive (fun v => v == 1) g L) (nbrsOf connectivity) r p)) ∧
    (∃ roots : List Pos,
      roots.Sublist (scanPairs L) ∧
      RQ3.compute_cluster_sizes g L connectivity =
        roots.map (fun r => Set.ncard
          {p | Reach (okLive (fun v => decide (0 < v)) g L)
            (nbrsOf connectivity) r p}) ∧
      roots.Pairwise (fun a b =>
        ¬ Reach (okLive (fun v => decide (0 < v)) g L) (nbrsOf connectivity) a b) ∧
      (∀ r ∈ roots, okLive (fun v => decide (0 < v)) g L r) ∧
      (∀ p, okLive (fun v => decide (0 < v)) g L p → ∃ r ∈ roots,
        Reach (okLive (fun v => decide (0 < v)) g L) (nbrsOf connectivity) r p)) ∧
    SIM.compute_cluster_sizes gClusters 5 4 = [3, 7] := by
  refine ⟨?_, ?_, by decide⟩
  · exact cluster_wrapper_spec (fun v => v == 1) g L connectivity
  · exact cluster_wrapper_spec (fun v => decide (0 < v)) g L connectivity

/-- C7 counterexample: on a 1 by 1 grid whose cell holds the non-EMPTY FIRE
state 2, the foundation `_compute_cluster_sizes` returns no component at all
(the cell is not partitioned anywhere), refuting the claim that all non-EMPTY
cells are partitioned; the rq3 variant does return [1]. -/
theorem cluster_sizes_misses_fire_cell :
    gState2 (0, 0) ≠ 0 ∧ inB 1 (0, 0) ∧
    SIM.compute_cluster_sizes gState2 1 4 = [] ∧
    RQ3.compute_cluster_sizes gState2 1 4 = [1] := by decide
